import Mathlib

/-!
# TrieConfig: a shallow embedding of `trieconfig.go`

The Go package builds a tree of `Section` nodes from a JSON document and
resolves slash-delimited request paths against it.  This file embeds the
package's functions as Lean definitions and proves properties about them.

Conventions of the embedding.

* A Go `string` is the list of runes a `range` loop over it yields
  (`GoString := List Char`).  Every string the package handles comes out of
  `encoding/json`, which only produces valid UTF-8, and every byte the package
  searches for (`/`, `.`, `"`) is ASCII, so rune-wise and byte-wise reading
  agree.
* `Section` is a tree of real nodes: its `Children` are the sections the child
  pointers point to, none of them nil.  Every section of an index returned by
  `NewConfigGetter` is of this kind.  `SectionPtr` is the pointer itself, which
  may be nil (`encoding/json` stores nil for a `null` element of a `section`
  array); `SectionPtr.Traverse` and `SectionPtr.updateResourceRoutes` are the
  functions on pointers, with the nil dereference as a panic, and
  `Traverse_ofSection`, `updateResourceRoutes_ofSection` show that the
  functions on `Section` are their restrictions to trees without nil.
* A run-time panic is an explicit outcome (`Result.panic`, or `none` for
  functions that have no error result).
* The simple lower-case mapping of the non-ASCII part of Unicode
  (`unicode.To(unicode.LowerCase, r)`) is a parameter `caseLower`; the ASCII
  branch of `unicode.ToLower` and all of `unicode.IsSpace` are written out.
-/

namespace trieconfig

/-! ## Strings and the standard-library functions the package calls -/

/-- A Go string, read rune by rune. -/
abbrev GoString := List Char

/-- Go `unicode.IsSpace`: the Latin-1 switch
`'\t', '\n', '\v', '\f', '\r', ' ', U+0085, U+00A0`, and above Latin-1 the
`White_Space` range table (U+1680, U+2000..U+200A, U+2028, U+2029, U+202F,
U+205F, U+3000). -/
def unicode.IsSpace (r : Char) : Bool :=
  let n := r.toNat
  if n ≤ 0xFF then
    n = 0x09 || n = 0x0A || n = 0x0B || n = 0x0C || n = 0x0D || n = 0x20 ||
      n = 0x85 || n = 0xA0
  else
    n = 0x1680 || (0x2000 ≤ n && n ≤ 0x200A) || n = 0x2028 || n = 0x2029 ||
      n = 0x202F || n = 0x205F || n = 0x3000

/-- Go `unicode.ToLower`: for `r <= MaxASCII` the letters `'A'..'Z'` are moved
by `'a' - 'A'` and every other rune is returned as it is; above ASCII the
result is the case-table lookup `To(LowerCase, r)`, here `caseLower r`. -/
def unicode.ToLower (caseLower : Char → Char) (r : Char) : Char :=
  if r.toNat ≤ 0x7F then
    if 0x41 ≤ r.toNat ∧ r.toNat ≤ 0x5A then Char.ofNat (r.toNat + 0x20) else r
  else caseLower r

/-- Go `strings.ToLower`: every rune mapped through `unicode.ToLower` (the
ASCII fast path of the library computes the same string). -/
def strings.ToLower (caseLower : Char → Char) (s : GoString) : GoString :=
  s.map (unicode.ToLower caseLower)

/-- Go `strings.Map` for a mapping that never returns a negative rune (the
only mapping the package passes is `slugify`). -/
def strings.Map (mapping : Char → Char) (s : GoString) : GoString :=
  s.map mapping

/-- Go `strings.Split(s, sep)` for a one-byte separator: the pieces of `s`
between the occurrences of `sep`; there is always at least one piece. -/
def strings.Split (s : GoString) (sep : Char) : List GoString :=
  match s with
  | [] => [[]]
  | c :: cs =>
    if c = sep then [] :: strings.Split cs sep
    else
      match strings.Split cs sep with
      | [] => [[c]]
      | piece :: pieces => (c :: piece) :: pieces

/-- The backtracking loop of the `..` case of Go `path.Clean`:
`for out.w > dotdot && out.index(out.w) != '/' { out.w-- }`.  The buffer is
kept reversed: `c` is the byte at index `out.w` and the list holds
`out[0:out.w]`, last byte first. -/
def path.Clean.backtrack (dotdot : Nat) : List Char → Char → List Char
  | [], _ => []
  | d :: out, c =>
    if (d :: out).length > dotdot ∧ c ≠ '/' then path.Clean.backtrack dotdot out d
    else d :: out

/-- The main loop `for r < n` of Go `path.Clean`.  `rest` is `path[r:]`, `out`
is the output buffer reversed (so `out.w = out.length`), `dotdot` is the index
where `..` must stop.  Every iteration consumes at least one byte of `rest`,
so the loop ends within `rest.length` iterations; `fuel` bounds them. -/
def path.Clean.loop (rooted : Bool) : Nat → List Char → List Char → Nat → List Char
  | 0, _, out, _ => out
  | _ + 1, [], out, _ => out
  | fuel + 1, c :: rest, out, dotdot =>
    if c = '/' then
      -- empty path element
      path.Clean.loop rooted fuel rest out dotdot
    else if c = '.' ∧ (rest = [] ∨ rest.head? = some '/') then
      -- . element
      path.Clean.loop rooted fuel rest out dotdot
    else if c = '.' ∧ rest.head? = some '.' ∧
        (rest.tail = [] ∨ rest.tail.head? = some '/') then
      -- .. element: remove to last /
      if out.length > dotdot then
        match out with
        | [] => path.Clean.loop rooted fuel rest.tail out dotdot
        | d :: out1 =>
          path.Clean.loop rooted fuel rest.tail (path.Clean.backtrack dotdot out1 d) dotdot
      else if ¬ rooted then
        let out1 := if out.length > 0 then '/' :: out else out
        path.Clean.loop rooted fuel rest.tail ('.' :: '.' :: out1) (out1.length + 2)
      else
        path.Clean.loop rooted fuel rest.tail out dotdot
    else
      -- real path element: add slash if needed, then copy the element
      let out1 :=
        if (rooted ∧ out.length ≠ 1) ∨ (¬ rooted ∧ out.length ≠ 0) then '/' :: out else out
      path.Clean.loop rooted fuel (rest.dropWhile (fun x => x ≠ '/'))
        ((rest.takeWhile (fun x => x ≠ '/')).reverse ++ c :: out1) dotdot

/-- Go `path.Clean`. -/
def path.Clean (p : GoString) : GoString :=
  match p with
  | [] => ['.']
  | c :: rest =>
    let out :=
      if c = '/' then path.Clean.loop true (rest.length + 1) rest ['/'] 1
      else path.Clean.loop false (rest.length + 2) (c :: rest) [] 0
    if out.length = 0 then ['.'] else out.reverse

/-- The buffer loop of Go `path.Join`: the non-empty elements separated by
`/` (an empty element is skipped while the buffer is still empty). -/
def path.Join.buf : List Char → List GoString → List Char
  | buf, [] => buf
  | buf, e :: elem =>
    if buf.length > 0 ∨ e ≠ [] then
      path.Join.buf ((if buf.length > 0 then buf ++ ['/'] else buf) ++ e) elem
    else path.Join.buf buf elem

/-- Go `path.Join`: the empty string when every element is empty, otherwise
`Clean` of the elements joined by `/`. -/
def path.Join (elem : List GoString) : GoString :=
  if (elem.map List.length).sum = 0 then [] else path.Clean (path.Join.buf [] elem)

/-! ## The data model of `trieconfig.go` -/

/-- The `SectionType` enum (`iota` order). -/
inductive SectionType where
  | COLLECTION
  | ITEM
  | WCMS_TOPIC
  | RECCOMENDATIONS_TOPIC
  | TOPIC_CONTENT
  deriving DecidableEq

/-- The `Section` struct behind a pointer that is not nil and whose children,
at every depth, are not nil either (`SectionPtr` is the pointer with nil
kept).  `Src` is the `json.RawMessage` (its bytes). -/
structure Section where
  Name : GoString
  Children : List Section
  Src : List Char
  SectionType : SectionType
  ResourceID : GoString
  requestPath : GoString

/-- The zero value `Section{}`. -/
def Section.zero : Section := ⟨[], [], [], SectionType.COLLECTION, [], []⟩

/-- The `ConfigGetter` struct.  The `src` reader is only stored, never read
back, and is left out. -/
structure ConfigGetter where
  configSection : Section

/-- The error values the package returns. -/
inductive Error where
  /-- The value of `errors.New("Could not Parse section type ")`. -/
  | parseSectionType
  /-- A structural error reported by `encoding/json`. -/
  | json
  /-- The value of `fmt.Errorf("request URI: %s, doesn't contain enough pathSegments", requestURI)`. -/
  | notEnoughSegments (requestURI : GoString)
  /-- The value of `fmt.Errorf("Found resource.ResourceId:%s, does not match request URI endSegment:%s", ...)`. -/
  | resourceMismatch (found endSegment : GoString)
  deriving DecidableEq

/-- Outcome of a Go function with an `error` result: a value (error `nil`),
an error (value `nil`), or a run-time panic. -/
inductive Result (α : Type) where
  | ok (a : α)
  | error (e : Error)
  | panic

/-- What `encoding/json` finds in the bytes `raw` when it decodes them into the
`Alias` struct (`json.Unmarshal(b, &alias)`), before the package's own
unmarshalers have run.

* `invalid`: the library reports a structural error for the fragment as a
  whole and decodes nothing of it (a syntax error, or a value that is neither
  an object nor `null`).
* `fields`: the bytes are acceptable; `name` and `resourceId` are the strings
  stored for the keys `name` and `resourceId` (`none` when the key is absent or
  `null`), `sections` are the fragments of the elements of the `section`
  array, each of which is handed to `Section.UnmarshalJSON`, and `type` is the
  raw token of the `type` key, handed to `SectionType.UnmarshalJSON` (`none`
  when the key is absent).

The view covers the documents in which every known key holds a value of the
JSON kind its field expects, no element of a `section` array is `null`, and
the `type` key of an object, if present, comes before its `section` key, as in
the documents of the test file.  For other documents the library works in
document order, so the classifier may panic where this view reports an error
of another key; what the build does whatever the library did is
`NewConfigGetterPtr`. -/
inductive Fragment where
  | invalid (raw : List Char)
  | fields (raw : List Char) (name : Option GoString) (sections : List Fragment)
      (type : Option (List Char)) (resourceId : Option GoString)

/-! ## The functions of `trieconfig.go` -/

/-- Go `SectionType.UnmarshalJSON`.  The slice expression `b[1 : len(b)-1]`
panics when `len(b) < 2`; otherwise it drops the first and the last byte (the
quotes of a string token). -/
def SectionType.UnmarshalJSON (caseLower : Char → Char) (b : List Char) :
    Result SectionType :=
  if b.length < 2 then Result.panic
  else
    let ctype := strings.ToLower caseLower ((b.drop 1).take (b.length - 1 - 1))
    if ctype = "recommendations".toList then Result.ok SectionType.RECCOMENDATIONS_TOPIC
    else if ctype = "wcmstopic".toList then Result.ok SectionType.WCMS_TOPIC
    else if ctype = "item".toList then Result.ok SectionType.ITEM
    else if ctype = "topiccontent".toList then Result.ok SectionType.TOPIC_CONTENT
    else if ctype = "section".toList then Result.ok SectionType.COLLECTION
    else Result.error Error.parseSectionType

/-- Go `Section.ResourceLocator`. -/
def Section.ResourceLocator (s : Section) : GoString := s.ResourceID

mutual
/-- Go `Section.Traverse` on a tree of real nodes (`SectionPtr.Traverse` is the
function on pointers, where a nil child panics).  `none` is the
index-out-of-range panic of `pathSegments[0]` on an empty slice. -/
def Section.Traverse (s : Section) (pathSegments : List GoString) : Option Section :=
  match pathSegments with
  | [] => none
  | pathSegment :: nextSegments =>
    match s with
    | ⟨_, children, _, _, _, _⟩ =>
      if children.length > 0 then
        Section.Traverse.range s children pathSegment nextSegments
      else some s
/-- The loop `for _, child := range s.Children` of `Section.Traverse`, over the
children not yet visited; when it runs out, `Traverse` returns `s`. -/
def Section.Traverse.range (s : Section) (children : List Section)
    (pathSegment : GoString) (nextSegments : List GoString) : Option Section :=
  match children with
  | [] => some s
  | child :: more =>
    if pathSegment = child.ResourceLocator then
      -- we have a match
      if nextSegments.length > 0 then child.Traverse nextSegments
      else some child
    else Section.Traverse.range s more pathSegment nextSegments
end

/-- Go `slugify`. -/
def slugify (r : Char) : Char :=
  if unicode.IsSpace r then '_' else r

/-- The identifier normalizer of `Section.UnmarshalJSON`:
`strings.Map(slugify, strings.ToLower(id))`. -/
def normalize (caseLower : Char → Char) (id : GoString) : GoString :=
  strings.Map slugify (strings.ToLower caseLower id)

/-- The statements of `Section.UnmarshalJSON` after `json.Unmarshal` has
filled `alias`: the `ResourceID` fallback to `Name`, the normalization, the
copy into `*s` and the assignment of `Src`. -/
def Section.ofAlias (caseLower : Char → Char) (b : List Char) (al : Section) : Section :=
  let al1 : Section :=
    if al.ResourceID = [] then { al with ResourceID := al.Name } else al
  let al2 : Section := { al1 with ResourceID := normalize caseLower al1.ResourceID }
  { al2 with Src := b }

mutual
/-- Go `Section.UnmarshalJSON`.  `json.Unmarshal(b, &alias)` starts from the
zero `Alias`, runs `SectionType.UnmarshalJSON` on the `type` token and
`Section.UnmarshalJSON` on every element of the `section` array, and stops
at the first error or panic of either. -/
def Section.UnmarshalJSON (caseLower : Char → Char) (b : Fragment) : Result Section :=
  match b with
  | Fragment.invalid _ => Result.error Error.json
  | Fragment.fields raw name sections type resourceId =>
    match (match type with
        | none => Result.ok SectionType.COLLECTION
        | some token => SectionType.UnmarshalJSON caseLower token) with
    | Result.panic => Result.panic
    | Result.error e => Result.error e
    | Result.ok kind =>
      match Section.UnmarshalJSON.elements caseLower sections with
      | Result.panic => Result.panic
      | Result.error e => Result.error e
      | Result.ok children =>
        Result.ok (Section.ofAlias caseLower raw
          ⟨name.getD [], children, [], kind, resourceId.getD [], []⟩)
/-- Decoding of the elements of the `section` array, in order. -/
def Section.UnmarshalJSON.elements (caseLower : Char → Char) (bs : List Fragment) :
    Result (List Section) :=
  match bs with
  | [] => Result.ok []
  | b :: rest =>
    match Section.UnmarshalJSON caseLower b with
    | Result.panic => Result.panic
    | Result.error e => Result.error e
    | Result.ok child =>
      match Section.UnmarshalJSON.elements caseLower rest with
      | Result.panic => Result.panic
      | Result.error e => Result.error e
      | Result.ok children => Result.ok (child :: children)
end

mutual
/-- The body of Go `Section.updateResourceRoutes` on a tree of real nodes
(`SectionPtr.setRoutes` is the function on pointers, where a nil child
panics), for a node whose own `requestPath` has just been set to
`requestPath`: every child gets `path.Join(s.requestPath, section.ResourceID)`
and is updated in turn. -/
def Section.setRoutes (requestPath : GoString) (s : Section) : Section :=
  match s with
  | ⟨name, children, src, kind, resourceID, _⟩ =>
    ⟨name, Section.setRoutes.range requestPath children, src, kind, resourceID, requestPath⟩
/-- The loop `for _, section := range s.Children` of `updateResourceRoutes`. -/
def Section.setRoutes.range (parentPath : GoString) (children : List Section) :
    List Section :=
  match children with
  | [] => []
  | child :: more =>
    Section.setRoutes (path.Join [parentPath, child.ResourceID]) child ::
      Section.setRoutes.range parentPath more
end

/-- Go `Section.updateResourceRoutes`: the receiver keeps its `requestPath`. -/
def Section.updateResourceRoutes (s : Section) : Section :=
  Section.setRoutes s.requestPath s

/-- Go `ConfigGetter.readConfig`: decode into `cr.configSection` (left as it is
when decoding fails), then `updateResourceRoutes`, then return the decode
error.  `none` is a panic. -/
def ConfigGetter.readConfig (caseLower : Char → Char) (cr : ConfigGetter)
    (configSource : Fragment) : Option (ConfigGetter × Option Error) :=
  match Section.UnmarshalJSON caseLower configSource with
  | Result.panic => none
  | Result.error e => some (⟨cr.configSection.updateResourceRoutes⟩, some e)
  | Result.ok s => some (⟨s.updateResourceRoutes⟩, none)

/-- Go `NewConfigGetter`: the returned pair `(c, err)`; `none` is a panic. -/
def NewConfigGetter (caseLower : Char → Char) (configSource : Fragment) :
    Option (ConfigGetter × Option Error) :=
  ConfigGetter.readConfig caseLower ⟨Section.zero⟩ configSource

/-- Go `ConfigGetter.Get`.  `strings.Split` returns at least one piece, so the
slice expression `[1:]` is in range; the model keeps the out-of-range case as
a panic, like the panic of `Traverse` on no segments. -/
def ConfigGetter.Get (cr : ConfigGetter) (requestURI : GoString) : Result Section :=
  match strings.Split requestURI '/' with
  | [] => Result.panic
  | _ :: pathSegments =>
    if pathSegments.length < 1 then
      Result.error (Error.notEnoughSegments requestURI)
    else
      let endSegment := pathSegments.getLastD []
      match cr.configSection.Traverse pathSegments with
      | none => Result.panic
      | some foundSection =>
        if foundSection.ResourceLocator ≠ endSegment then
          Result.error (Error.resourceMismatch foundSection.ResourceLocator endSegment)
        else Result.ok foundSection

/-! ## Notions used to state the properties -/

/-- The first child of `s`, in child order, whose identifier equals `seg`. -/
def firstMatch (s : Section) (seg : GoString) : Option Section :=
  s.Children.find? (fun child => decide (seg = child.ResourceLocator))

/-- The node reached from `s` by matching the segments one after the other,
each step moving to the first child whose identifier equals the next segment,
and stopping at the first segment that no child matches. -/
def longestMatch : List GoString → Section → Section
  | [], s => s
  | seg :: rest, s =>
    match firstMatch s seg with
    | none => s
    | some child => longestMatch rest child

/-- The node located at the identifier path `segs` below `s`: every segment
is matched, in order, by a chain of children (first match at each level);
`none` when some segment has no child with that identifier at its level. -/
def nodeAt : List GoString → Section → Option Section
  | [], s => some s
  | seg :: rest, s =>
    match firstMatch s seg with
    | none => none
    | some child => nodeAt rest child

mutual
/-- The nodes of the tree rooted at `s`: `s` itself, then the nodes of its
children, in child order. -/
def Section.nodes (s : Section) : List Section :=
  match s with
  | ⟨name, children, src, kind, resourceID, requestPath⟩ =>
    ⟨name, children, src, kind, resourceID, requestPath⟩ :: Section.nodes.list children
/-- The nodes of a list of trees. -/
def Section.nodes.list (children : List Section) : List Section :=
  match children with
  | [] => []
  | child :: more => child.nodes ++ Section.nodes.list more
end

mutual
/-- The fragments of a document: the fragment itself, then the fragments of
the elements of its `section` array, in order. -/
def Fragment.nodes (b : Fragment) : List Fragment :=
  match b with
  | Fragment.invalid raw => [Fragment.invalid raw]
  | Fragment.fields raw name sections type resourceId =>
    Fragment.fields raw name sections type resourceId :: Fragment.nodes.list sections
/-- The fragments of a list of documents. -/
def Fragment.nodes.list (bs : List Fragment) : List Fragment :=
  match bs with
  | [] => []
  | b :: rest => b.nodes ++ Fragment.nodes.list rest
end

/-- The string that governs the identifier of a fragment: the `resourceId`
field when it is present and non-empty, otherwise the `name` field (the empty
string when that is absent too). -/
def Fragment.source (b : Fragment) : GoString :=
  match b with
  | Fragment.invalid _ => []
  | Fragment.fields _ name _ _ resourceId =>
    if resourceId.getD [] = [] then name.getD [] else resourceId.getD []

/-- An identifier that `path.Join` keeps as one path element: non-empty, free
of `/`, and neither `.` nor `..`. -/
def plainId (i : GoString) : Prop :=
  i ≠ [] ∧ '/' ∉ i ∧ i ≠ ['.'] ∧ i ≠ ['.', '.']

instance (i : GoString) : Decidable (plainId i) := by
  unfold plainId
  infer_instance

/-- The identifiers `i1, ..., ik` written as `i1/i2/.../ik`. -/
def joinSegs : List GoString → GoString
  | [] => []
  | [i] => i
  | i :: j :: rest => i ++ '/' :: joinSegs (j :: rest)

mutual
/-- Every child of every node of the tree carries the full path that
`updateResourceRoutes` assigns: the parent's `requestPath` joined with the
child's identifier. -/
def Section.Routed (s : Section) : Prop :=
  match s with
  | ⟨_, children, _, _, _, requestPath⟩ => Section.Routed.list requestPath children
/-- The children `children` of a node with full path `parentPath` are routed. -/
def Section.Routed.list (parentPath : GoString) (children : List Section) : Prop :=
  match children with
  | [] => True
  | child :: more =>
    child.requestPath = path.Join [parentPath, child.ResourceID] ∧ child.Routed ∧
      Section.Routed.list parentPath more
end

/-! ## Documents of the test file -/

/-- The document of the `Nested sections` test:
`{"name":"root","type":"item","section":[{"name":"section1"},{"name":"section2"}]}`. -/
def nestedDoc : Fragment :=
  Fragment.fields
    "\x7b\"name\":\"root\",\"type\":\"item\",\"section\":[\x7b\"name\":\"section1\"\x7d,\x7b\"name\":\"section2\"\x7d]\x7d".toList
    (some "root".toList)
    [Fragment.fields "\x7b\"name\":\"section1\"\x7d".toList (some "section1".toList) [] none none,
     Fragment.fields "\x7b\"name\":\"section2\"\x7d".toList (some "section2".toList) [] none none]
    (some "\"item\"".toList) none

/-- The second child of `nestedDoc` as `Section.UnmarshalJSON` decodes it. -/
def section2 : Section :=
  ⟨"section2".toList, [], "\x7b\"name\":\"section2\"\x7d".toList, SectionType.COLLECTION,
    "section2".toList, []⟩

/-- The first child of `nestedDoc` as `Section.UnmarshalJSON` decodes it. -/
def section1 : Section :=
  ⟨"section1".toList, [], "\x7b\"name\":\"section1\"\x7d".toList, SectionType.COLLECTION,
    "section1".toList, []⟩

/-- The root that `json.Unmarshal` builds from `nestedDoc` (the `section`
variable of the `Nested sections` test). -/
def nestedRoot : Section :=
  ⟨"root".toList, [section1, section2],
    "\x7b\"name\":\"root\",\"type\":\"item\",\"section\":[\x7b\"name\":\"section1\"\x7d,\x7b\"name\":\"section2\"\x7d]\x7d".toList,
    SectionType.ITEM, "root".toList, []⟩

/-- The index `NewConfigGetter` builds from `nestedDoc`. -/
def nestedIndex : ConfigGetter :=
  ⟨{ nestedRoot with
      Children := [{ section1 with requestPath := "section1".toList },
                   { section2 with requestPath := "section2".toList }] }⟩

/-! ## Further example documents -/

/-- The document `{"name":"news", "resourceid":"OLdS"}` of the test table. -/
def oldsDoc : Fragment :=
  Fragment.fields "\x7b\"name\":\"news\", \"resourceid\":\"OLdS\"\x7d".toList
    (some "news".toList) [] none (some "OLdS".toList)

/-- The document `{"name":"NEWS 24","section":[{"name":"news 24"}]}`: the two
names of the test table that contain a space, as parent and child. -/
def news24Doc : Fragment :=
  Fragment.fields
    "\x7b\"name\":\"NEWS 24\",\"section\":[\x7b\"name\":\"news 24\"\x7d]\x7d".toList
    (some "NEWS 24".toList)
    [Fragment.fields "\x7b\"name\":\"news 24\"\x7d".toList (some "news 24".toList) [] none
      none]
    none none

/-- The document `{}`. -/
def emptyObjectDoc : Fragment :=
  Fragment.fields "\x7b\x7d".toList none [] none none

/-- The document
`{"name":"root","section":[{"name":"a"},{"name":"a","section":[{"name":"b"}]}]}`:
two siblings with the same identifier. -/
def twinsDoc : Fragment :=
  Fragment.fields
    "\x7b\"name\":\"root\",\"section\":[\x7b\"name\":\"a\"\x7d,\x7b\"name\":\"a\",\"section\":[\x7b\"name\":\"b\"\x7d]\x7d]\x7d".toList
    (some "root".toList)
    [Fragment.fields "\x7b\"name\":\"a\"\x7d".toList (some "a".toList) [] none none,
     Fragment.fields "\x7b\"name\":\"a\",\"section\":[\x7b\"name\":\"b\"\x7d]\x7d".toList
       (some "a".toList)
       [Fragment.fields "\x7b\"name\":\"b\"\x7d".toList (some "b".toList) [] none none]
       none none]
    none none

/-- The node `b` of the index built from `twinsDoc`. -/
def twinsB : Section :=
  ⟨"b".toList, [], "\x7b\"name\":\"b\"\x7d".toList, SectionType.COLLECTION, "b".toList,
    "a/b".toList⟩

/-- The index `NewConfigGetter` builds from `twinsDoc`. -/
def twinsIndex : ConfigGetter :=
  ⟨⟨"root".toList,
    [⟨"a".toList, [], "\x7b\"name\":\"a\"\x7d".toList, SectionType.COLLECTION, "a".toList,
        "a".toList⟩,
     ⟨"a".toList, [twinsB],
        "\x7b\"name\":\"a\",\"section\":[\x7b\"name\":\"b\"\x7d]\x7d".toList,
        SectionType.COLLECTION, "a".toList, "a".toList⟩],
    "\x7b\"name\":\"root\",\"section\":[\x7b\"name\":\"a\"\x7d,\x7b\"name\":\"a\",\"section\":[\x7b\"name\":\"b\"\x7d]\x7d]\x7d".toList,
    SectionType.COLLECTION, "root".toList, []⟩⟩

/-- The document `{"name":"root","section":[{"name":"a/b"}]}`: an identifier
that contains the path separator. -/
def slashDoc : Fragment :=
  Fragment.fields
    "\x7b\"name\":\"root\",\"section\":[\x7b\"name\":\"a/b\"\x7d]\x7d".toList
    (some "root".toList)
    [Fragment.fields "\x7b\"name\":\"a/b\"\x7d".toList (some "a/b".toList) [] none none]
    none none

/-- The only child of the index built from `slashDoc`. -/
def slashChild : Section :=
  ⟨"a/b".toList, [], "\x7b\"name\":\"a/b\"\x7d".toList, SectionType.COLLECTION,
    "a/b".toList, "a/b".toList⟩

/-- The index `NewConfigGetter` builds from `slashDoc`. -/
def slashIndex : ConfigGetter :=
  ⟨⟨"root".toList, [slashChild],
    "\x7b\"name\":\"root\",\"section\":[\x7b\"name\":\"a/b\"\x7d]\x7d".toList,
    SectionType.COLLECTION, "root".toList, []⟩⟩

/-! ## Notions for the section kinds -/

/-- The table of recognized type tokens as the specification lists it:
`section`, `item`, `wcmstopic`, `recommendations`, `topiccontent`, with the
kind each one stands for. -/
def kindOfToken (token : GoString) : Option SectionType :=
  if token = "section".toList then some SectionType.COLLECTION
  else if token = "item".toList then some SectionType.ITEM
  else if token = "wcmstopic".toList then some SectionType.WCMS_TOPIC
  else if token = "recommendations".toList then some SectionType.RECCOMENDATIONS_TOPIC
  else if token = "topiccontent".toList then some SectionType.TOPIC_CONTENT
  else none

/-- Go `SectionType.UnmarshalJSON` together with its receiver: `s` is the
value of `*s` before the call, the result is the value of `*s` after the call
and the returned error.  Each recognized case assigns `*s` and returns `nil`;
the `default` case returns the error without assigning.  `none` is the panic
of the slice expression. -/
def SectionType.UnmarshalJSON.receiver (caseLower : Char → Char) (s : SectionType)
    (b : List Char) : Option (SectionType × Option Error) :=
  if b.length < 2 then none
  else
    let ctype := strings.ToLower caseLower ((b.drop 1).take (b.length - 1 - 1))
    if ctype = "recommendations".toList then some (SectionType.RECCOMENDATIONS_TOPIC, none)
    else if ctype = "wcmstopic".toList then some (SectionType.WCMS_TOPIC, none)
    else if ctype = "item".toList then some (SectionType.ITEM, none)
    else if ctype = "topiccontent".toList then some (SectionType.TOPIC_CONTENT, none)
    else if ctype = "section".toList then some (SectionType.COLLECTION, none)
    else some (s, some Error.parseSectionType)

/-- The document `{"name":"news  24"}`: a name with two adjacent spaces. -/
def twoSpacesDoc : Fragment :=
  Fragment.fields "\x7b\"name\":\"news  24\"\x7d".toList (some "news  24".toList) [] none none

/-- The raw `type` token of a fragment, `none` when the object has no `type`
key. -/
def Fragment.typeToken (b : Fragment) : Option (List Char) :=
  match b with
  | Fragment.invalid _ => none
  | Fragment.fields _ _ _ type _ => type

/-- The document `{"type":"bogus"}`. -/
def bogusDoc : Fragment :=
  Fragment.fields "\x7b\"type\":\"bogus\"\x7d".toList none [] (some "\"bogus\"".toList) none

/-- The document
`{"name":"root","section":[{"name":"a","section":[{"name":"b","type":"bogus"}]}]}`:
the unrecognized token sits two levels below the root. -/
def deepBogusDoc : Fragment :=
  Fragment.fields
    "\x7b\"name\":\"root\",\"section\":[\x7b\"name\":\"a\",\"section\":[\x7b\"name\":\"b\",\"type\":\"bogus\"\x7d]\x7d]\x7d".toList
    (some "root".toList)
    [Fragment.fields
      "\x7b\"name\":\"a\",\"section\":[\x7b\"name\":\"b\",\"type\":\"bogus\"\x7d]\x7d".toList
      (some "a".toList)
      [Fragment.fields "\x7b\"name\":\"b\",\"type\":\"bogus\"\x7d".toList (some "b".toList) []
        (some "\"bogus\"".toList) none]
      none none]
    none none

/-- The document `{"type":5}`: the value of `type` is a one-digit number. -/
def digitTypeDoc : Fragment :=
  Fragment.fields "\x7b\"type\":5\x7d".toList none [] (some "5".toList) none

/-- The document `{"type":5,"section":[{"type":"bogus"}]}`. -/
def digitThenBogusDoc : Fragment :=
  Fragment.fields "\x7b\"type\":5,\"section\":[\x7b\"type\":\"bogus\"\x7d]\x7d".toList none
    [Fragment.fields "\x7b\"type\":\"bogus\"\x7d".toList none [] (some "\"bogus\"".toList) none]
    (some "5".toList) none

mutual
/-- The tree `s` with every `requestPath` set to the empty string: what is
left of a tree when the full paths are disregarded (names, identifiers,
kinds, raw payloads and the order of the children). -/
def Section.clearRoutes (s : Section) : Section :=
  match s with
  | ⟨name, children, src, kind, resourceID, _⟩ =>
    ⟨name, Section.clearRoutes.list children, src, kind, resourceID, []⟩
/-- The trees of a list with their full paths disregarded. -/
def Section.clearRoutes.list (children : List Section) : List Section :=
  match children with
  | [] => []
  | child :: more => child.clearRoutes :: Section.clearRoutes.list more
end

/-- The node `n` is reached from `s` through children with the identifiers
`chain`, one level per identifier (any child with that identifier, not only
the first). -/
def reaches : List GoString → Section → Section → Prop
  | [], s, n => n = s
  | i :: rest, s, n => ∃ c ∈ s.Children, c.ResourceID = i ∧ reaches rest c n

/-! ## Pointer trees: `*Section` values that may be nil -/

/-- A `*Section` as Go holds it: the nil pointer, or a pointer to a section
whose `Children` are again such pointers.  `encoding/json` stores nil for a
`null` element of the `section` array (without calling
`Section.UnmarshalJSON`), so a tree built by `json.Unmarshal` can have nil
children. -/
inductive SectionPtr where
  | nil
  | ptr (name : GoString) (children : List SectionPtr) (src : List Char)
      (kind : SectionType) (resourceID : GoString) (requestPath : GoString)

mutual
/-- A tree of real nodes as a pointer tree (no pointer in it is nil). -/
def SectionPtr.ofSection (s : Section) : SectionPtr :=
  match s with
  | ⟨name, children, src, kind, resourceID, requestPath⟩ =>
    SectionPtr.ptr name (SectionPtr.ofSection.list children) src kind resourceID requestPath
/-- The children of a real node as pointers. -/
def SectionPtr.ofSection.list (children : List Section) : List SectionPtr :=
  match children with
  | [] => []
  | child :: more => SectionPtr.ofSection child :: SectionPtr.ofSection.list more
end

/-- Go `Section.ResourceLocator` on a pointer receiver: `none` is the panic of
`s.ResourceID` on a nil receiver. -/
def SectionPtr.ResourceLocator (s : SectionPtr) : Option GoString :=
  match s with
  | SectionPtr.nil => none
  | SectionPtr.ptr _ _ _ _ resourceID _ => some resourceID

mutual
/-- Go `Section.Traverse` on a pointer receiver.  `none` is a panic: the
index-out-of-range of `pathSegments[0]` on an empty slice, `s.Children` on a
nil receiver, or `child.ResourceLocator()` on a nil child. -/
def SectionPtr.Traverse (s : SectionPtr) (pathSegments : List GoString) :
    Option SectionPtr :=
  match pathSegments with
  | [] => none
  | pathSegment :: nextSegments =>
    match s with
    | SectionPtr.nil => none
    | SectionPtr.ptr name children src kind resourceID requestPath =>
      if children.length > 0 then
        SectionPtr.Traverse.range
          (SectionPtr.ptr name children src kind resourceID requestPath) children
          pathSegment nextSegments
      else some (SectionPtr.ptr name children src kind resourceID requestPath)
/-- The loop `for _, child := range s.Children` of `Section.Traverse` on
pointers, over the children not yet visited. -/
def SectionPtr.Traverse.range (s : SectionPtr) (children : List SectionPtr)
    (pathSegment : GoString) (nextSegments : List GoString) : Option SectionPtr :=
  match children with
  | [] => some s
  | SectionPtr.nil :: _ => none
  | SectionPtr.ptr name grandchildren src kind resourceID requestPath :: more =>
    if pathSegment = resourceID then
      -- we have a match
      if nextSegments.length > 0 then
        SectionPtr.Traverse
          (SectionPtr.ptr name grandchildren src kind resourceID requestPath) nextSegments
      else some (SectionPtr.ptr name grandchildren src kind resourceID requestPath)
    else SectionPtr.Traverse.range s more pathSegment nextSegments
end

mutual
/-- The body of Go `Section.updateResourceRoutes` on a pointer whose own
`requestPath` has just been set to `requestPath`.  `none` is the panic of
`s.Children` on a nil receiver or of a nil child in the loop. -/
def SectionPtr.setRoutes (requestPath : GoString) (s : SectionPtr) : Option SectionPtr :=
  match s with
  | SectionPtr.nil => none
  | SectionPtr.ptr name children src kind resourceID _ =>
    match SectionPtr.setRoutes.range requestPath children with
    | none => none
    | some updated => some (SectionPtr.ptr name updated src kind resourceID requestPath)
/-- The loop `for _, section := range s.Children` of `updateResourceRoutes` on
pointers: a nil `section` panics at `section.ResourceID`. -/
def SectionPtr.setRoutes.range (parentPath : GoString) (children : List SectionPtr) :
    Option (List SectionPtr) :=
  match children with
  | [] => some []
  | SectionPtr.nil :: _ => none
  | SectionPtr.ptr name grandchildren src kind resourceID requestPath :: more =>
    match SectionPtr.setRoutes (path.Join [parentPath, resourceID])
        (SectionPtr.ptr name grandchildren src kind resourceID requestPath) with
    | none => none
    | some child =>
      match SectionPtr.setRoutes.range parentPath more with
      | none => none
      | some rest => some (child :: rest)
end

/-- Go `Section.updateResourceRoutes` on a pointer receiver, which keeps its
own `requestPath`; `none` is a panic. -/
def SectionPtr.updateResourceRoutes (s : SectionPtr) : Option SectionPtr :=
  match s with
  | SectionPtr.nil => none
  | SectionPtr.ptr name children src kind resourceID requestPath =>
    SectionPtr.setRoutes requestPath
      (SectionPtr.ptr name children src kind resourceID requestPath)

/-- The pointer `json.Unmarshal` stores for the element `{"name":"a"}`. -/
def ptrA : SectionPtr :=
  SectionPtr.ptr "a".toList [] "\x7b\"name\":\"a\"\x7d".toList SectionType.COLLECTION
    "a".toList []

/-- The root `json.Unmarshal` builds from `{"name":"r","section":[null]}`:
its only child is nil. -/
def nullChildRoot : SectionPtr :=
  SectionPtr.ptr "r".toList [SectionPtr.nil]
    "\x7b\"name\":\"r\",\"section\":[null]\x7d".toList SectionType.COLLECTION "r".toList []

/-- The root `json.Unmarshal` builds from
`{"name":"r","section":[null,{"name":"a"}]}`: a nil child, then the child
`a`. -/
def nullThenARoot : SectionPtr :=
  SectionPtr.ptr "r".toList [SectionPtr.nil, ptrA]
    "\x7b\"name\":\"r\",\"section\":[null,\x7b\"name\":\"a\"\x7d]\x7d".toList
    SectionType.COLLECTION "r".toList []

/-- The root `json.Unmarshal` builds from `{"name":"r","section":[{"name":"a"}]}`. -/
def onlyARoot : SectionPtr :=
  SectionPtr.ptr "r".toList [ptrA] "\x7b\"name\":\"r\",\"section\":[\x7b\"name\":\"a\"\x7d]\x7d".toList
    SectionType.COLLECTION "r".toList []

/-- The root `json.Unmarshal` builds from
`{"name":"r","section":[{"name":"a","section":[null,{"name":"b"}]}]}`: the
child `a` has a nil child in front of its child `b`. -/
def deepNullRoot : SectionPtr :=
  SectionPtr.ptr "r".toList
    [SectionPtr.ptr "a".toList
      [SectionPtr.nil,
       SectionPtr.ptr "b".toList [] "\x7b\"name\":\"b\"\x7d".toList SectionType.COLLECTION
         "b".toList []]
      "\x7b\"name\":\"a\",\"section\":[null,\x7b\"name\":\"b\"\x7d]\x7d".toList
      SectionType.COLLECTION "a".toList []]
    "\x7b\"name\":\"r\",\"section\":[\x7b\"name\":\"a\",\"section\":[null,\x7b\"name\":\"b\"\x7d]\x7d]\x7d".toList
    SectionType.COLLECTION "r".toList []

/-- The children of a pointer to a real node (none for nil). -/
def SectionPtr.Children (s : SectionPtr) : List SectionPtr :=
  match s with
  | SectionPtr.nil => []
  | SectionPtr.ptr _ children _ _ _ _ => children

/-- The first child of `s`, in child order, that is a real node with the
identifier `seg`. -/
def firstMatchPtr (s : SectionPtr) (seg : GoString) : Option SectionPtr :=
  s.Children.find? (fun child => decide (child.ResourceLocator = some seg))

/-- The node reached from `s` by matching the segments one after the other,
each step moving to the first child whose identifier equals the next segment,
and stopping at the first segment that no child matches (pointer trees). -/
def longestMatchPtr : List GoString → SectionPtr → SectionPtr
  | [], s => s
  | seg :: rest, s =>
    match firstMatchPtr s seg with
    | none => s
    | some child => longestMatchPtr rest child

/-! ## The build, given what `encoding/json` did -/

/-- The local struct type `Alias` of `Section.UnmarshalJSON`
(`type Alias Section`): the fields of a section, its children being
pointers. -/
structure Alias where
  Name : GoString
  Children : List SectionPtr
  Src : List Char
  SectionType : SectionType
  ResourceID : GoString
  requestPath : GoString

/-- Go `Section.UnmarshalJSON` with its receiver `s`, given the outcome
`unmarshal` of the library call `json.Unmarshal(b, &alias)`: the value the
receiver points to after the call and the returned error.  When the library
call returns an error the function returns it before anything is assigned;
otherwise the `ResourceID` falls back to `Name`, is normalized, and `*s` and
`s.Src` are assigned.  `none` is a panic (of the library call, or of the
assignment through a nil receiver). -/
def SectionPtr.UnmarshalJSON (caseLower : Char → Char) (s : SectionPtr) (b : List Char)
    (unmarshal : Result Alias) : Option (SectionPtr × Option Error) :=
  match unmarshal with
  | Result.panic => none
  | Result.error err => some (s, some err)
  | Result.ok al =>
    let resourceID := if al.ResourceID = [] then al.Name else al.ResourceID
    match s with
    | SectionPtr.nil => none
    | SectionPtr.ptr _ _ _ _ _ _ =>
      some (SectionPtr.ptr al.Name al.Children b al.SectionType
        (strings.Map slugify (strings.ToLower caseLower resourceID)) al.requestPath, none)

/-- What `dec.Decode(cr.configSection)` does in `readConfig`: either the
decoder returns an error without calling the unmarshaler (no value in the
stream, or a syntax error), or it calls `cr.configSection.UnmarshalJSON(b)`
on the bytes `b` of the value, inside which `json.Unmarshal(b, &alias)` has
the outcome `unmarshal`. -/
inductive DecodeOutcome where
  | rejected (err : Error)
  | unmarshaled (b : List Char) (unmarshal : Result Alias)

/-- The `ConfigGetter` struct with its root as a pointer. -/
structure ConfigGetterPtr where
  configSection : SectionPtr

/-- The pointer `&Section{}`. -/
def SectionPtr.zero : SectionPtr :=
  SectionPtr.ptr [] [] [] SectionType.COLLECTION [] []

/-- Go `ConfigGetter.readConfig`, given what `dec.Decode` did: the decode
step, then `cr.configSection.updateResourceRoutes()`, then the return of the
decode error.  `none` is a panic. -/
def ConfigGetterPtr.readConfig (caseLower : Char → Char) (cr : ConfigGetterPtr)
    (decode : DecodeOutcome) : Option (ConfigGetterPtr × Option Error) :=
  match (match decode with
      | DecodeOutcome.rejected err => some (cr.configSection, some err)
      | DecodeOutcome.unmarshaled b unmarshal =>
        SectionPtr.UnmarshalJSON caseLower cr.configSection b unmarshal) with
  | none => none
  | some (root, err) =>
    match root.updateResourceRoutes with
    | none => none
    | some routed => some (⟨routed⟩, err)

/-- Go `NewConfigGetter`, given what `dec.Decode` did: the returned pair
`(c, err)`; `none` is a panic. -/
def NewConfigGetterPtr (caseLower : Char → Char) (decode : DecodeOutcome) :
    Option (ConfigGetterPtr × Option Error) :=
  ConfigGetterPtr.readConfig caseLower ⟨SectionPtr.zero⟩ decode

/-- The bytes of a fragment. -/
def Fragment.raw (b : Fragment) : List Char :=
  match b with
  | Fragment.invalid raw => raw
  | Fragment.fields raw _ _ _ _ => raw

/-- The outcome of `json.Unmarshal(b, &alias)` on a fragment, in the fragment
view: the classifier runs on the `type` token, `Section.UnmarshalJSON` on the
elements of `section`, and the first error or panic ends the call. -/
def Fragment.unmarshalAlias (caseLower : Char → Char) (b : Fragment) : Result Alias :=
  match b with
  | Fragment.invalid _ => Result.error Error.json
  | Fragment.fields _ name sections type resourceId =>
    match (match type with
        | none => Result.ok SectionType.COLLECTION
        | some token => SectionType.UnmarshalJSON caseLower token) with
    | Result.panic => Result.panic
    | Result.error e => Result.error e
    | Result.ok kind =>
      match Section.UnmarshalJSON.elements caseLower sections with
      | Result.panic => Result.panic
      | Result.error e => Result.error e
      | Result.ok children =>
        Result.ok ⟨name.getD [], SectionPtr.ofSection.list children, [], kind,
          resourceId.getD [], []⟩

/-! ## Basic facts -/

theorem Traverse_nil (s : Section) : s.Traverse [] = none := by
  simp [Section.Traverse]

theorem Traverse_range_eq (s : Section) (children : List Section) (seg : GoString)
    (rest : List GoString) :
    Section.Traverse.range s children seg rest =
      match children.find? (fun child => decide (seg = child.ResourceLocator)) with
      | none => some s
      | some child => if rest.length > 0 then child.Traverse rest else some child := by
  induction children with
  | nil => simp [Section.Traverse.range]
  | cons child more ih =>
    by_cases h : seg = child.ResourceLocator
    · simp [Section.Traverse.range, h]
    · simp [Section.Traverse.range, h, ih]

theorem Traverse_cons (s : Section) (seg : GoString) (rest : List GoString) :
    s.Traverse (seg :: rest) =
      match firstMatch s seg with
      | none => some s
      | some child => if rest.length > 0 then child.Traverse rest else some child := by
  obtain ⟨name, children, src, kind, id, rp⟩ := s
  cases children with
  | nil => simp [Section.Traverse, firstMatch]
  | cons c cs => simp [Section.Traverse, firstMatch, Traverse_range_eq]

theorem Traverse_eq_longestMatch (segs : List GoString) :
    ∀ s : Section, segs ≠ [] → s.Traverse segs = some (longestMatch segs s) := by
  induction segs with
  | nil => intro s h; exact absurd rfl h
  | cons seg rest ih =>
    intro s _
    rw [Traverse_cons]
    cases hm : firstMatch s seg with
    | none => simp [longestMatch, hm]
    | some child =>
      cases rest with
      | nil => simp [longestMatch, hm]
      | cons seg1 rest1 =>
        have := ih child (by simp)
        simp [longestMatch, hm] at this ⊢
        exact this

theorem longestMatch_of_nodeAt (segs : List GoString) :
    ∀ (s n : Section), nodeAt segs s = some n → longestMatch segs s = n := by
  induction segs with
  | nil => intro s n h; simpa [nodeAt, longestMatch] using h
  | cons seg rest ih =>
    intro s n h
    cases hm : firstMatch s seg with
    | none => simp [nodeAt, hm] at h
    | some child =>
      simp only [nodeAt, hm] at h
      simp only [longestMatch, hm]
      exact ih child n h

theorem Split_length (s : GoString) (sep : Char) :
    (strings.Split s sep).length = s.count sep + 1 := by
  induction s with
  | nil => simp [strings.Split]
  | cons c cs ih =>
    by_cases h : c = sep
    · subst h; simp [strings.Split, ih]
    · have h1 : (c == sep) = false := by simpa using h
      cases hs : strings.Split cs sep with
      | nil => rw [hs] at ih; simp at ih
      | cons piece pieces =>
        rw [hs] at ih
        simp [strings.Split, h, hs, List.count_cons, h1] at ih ⊢
        omega

theorem Split_tail_ne_nil (s : GoString) (h : '/' ∈ s) :
    (strings.Split s '/').tail ≠ [] := by
  have hl := Split_length s '/'
  have hc : 0 < s.count '/' := List.count_pos_iff.mpr h
  intro ht
  have : (strings.Split s '/').tail.length = 0 := by rw [ht]; rfl
  rw [List.length_tail] at this
  omega

/-! ## Path resolution: `Section.Traverse` and `ConfigGetter.Get` -/

theorem nestedDoc_decodes (caseLower : Char → Char) :
    Section.UnmarshalJSON caseLower nestedDoc = Result.ok nestedRoot := by
  rfl

theorem nestedDoc_index (caseLower : Char → Char) :
    NewConfigGetter caseLower nestedDoc = some (nestedIndex, none) := by
  rfl

theorem Get_of_segments (cr : ConfigGetter) (requestURI : GoString)
    (h : (strings.Split requestURI '/').tail ≠ []) :
    cr.Get requestURI =
      if (longestMatch (strings.Split requestURI '/').tail cr.configSection).ResourceLocator
          ≠ (strings.Split requestURI '/').tail.getLastD [] then
        Result.error (Error.resourceMismatch
          (longestMatch (strings.Split requestURI '/').tail cr.configSection).ResourceLocator
          ((strings.Split requestURI '/').tail.getLastD []))
      else Result.ok (longestMatch (strings.Split requestURI '/').tail cr.configSection) := by
  cases hs : strings.Split requestURI '/' with
  | nil => simp [hs] at h
  | cons first segs =>
    have hne : segs ≠ [] := by simpa [hs] using h
    have hlen : ¬ segs.length < 1 := by
      cases segs with
      | nil => exact absurd rfl hne
      | cons a l => simp
    simp only [ConfigGetter.Get, hs, hlen, if_false, List.tail_cons,
      Traverse_eq_longestMatch segs cr.configSection hne]

theorem firstMatch_of_split (s : Section) (before after : List Section) (c : Section)
    (seg : GoString) (hch : s.Children = before ++ c :: after)
    (hbefore : ∀ x ∈ before, x.ResourceLocator ≠ seg) (hc : c.ResourceLocator = seg) :
    firstMatch s seg = some c := by
  unfold firstMatch
  rw [hch]
  clear hch
  induction before with
  | nil => simp [hc]
  | cons x xs ih =>
    have hx : ¬ seg = x.ResourceLocator := fun e => hbefore x (by simp) e.symm
    have hxs : ∀ y ∈ xs, y.ResourceLocator ≠ seg := fun y hy => hbefore y (by simp [hy])
    simpa [List.find?, hx] using ih hxs

theorem firstMatch_eq_none (s : Section) (seg : GoString)
    (h : ∀ c ∈ s.Children, c.ResourceLocator ≠ seg) : firstMatch s seg = none := by
  unfold firstMatch
  rw [List.find?_eq_none]
  intro c hc
  have := h c hc
  simpa using fun e : seg = c.ResourceLocator => this e.symm

/-- C1 (the code departs from it): a request whose segments are not matched
by any chain of children still gets a node from `ConfigGetter.Get` when the
identifier of the node where `Traverse` stopped happens to equal the last
segment.  On the index built from the test document, `/section1/x/section1`
names no node (`section1` has no child `x`), yet `Get` returns the node
`section1`, whose own path is `section1`. -/
theorem Get_returns_node_off_requested_path :
    NewConfigGetter (fun c => c) nestedDoc = some (nestedIndex, none) ∧
    nodeAt ["section1".toList, "x".toList, "section1".toList] nestedIndex.configSection
      = none ∧
    firstMatch { section1 with requestPath := "section1".toList } "x".toList = none ∧
    nestedIndex.Get "/section1/x/section1".toList
      = Result.ok { section1 with requestPath := "section1".toList } := by
  refine ⟨rfl, rfl, rfl, rfl⟩

/-- C3: for a request path with a `/` in it, `ConfigGetter.Get` returns a node
exactly when the identifier of the node `Traverse` returns from the root
equals the last requested segment; the node returned is then `Traverse`s
result, and otherwise `Get` returns the mismatch error (and no node). -/
theorem Get_iff_found_matches_endSegment (cr : ConfigGetter) (requestURI : GoString)
    (h : '/' ∈ requestURI) :
    ∃ found : Section,
      cr.configSection.Traverse (strings.Split requestURI '/').tail = some found ∧
      ((∃ n, cr.Get requestURI = Result.ok n) ↔
        found.ResourceLocator = (strings.Split requestURI '/').tail.getLastD []) ∧
      (found.ResourceLocator = (strings.Split requestURI '/').tail.getLastD [] →
        cr.Get requestURI = Result.ok found) ∧
      (found.ResourceLocator ≠ (strings.Split requestURI '/').tail.getLastD [] →
        cr.Get requestURI = Result.error (Error.resourceMismatch found.ResourceLocator
          ((strings.Split requestURI '/').tail.getLastD []))) := by
  have hne := Split_tail_ne_nil requestURI h
  have hget := Get_of_segments cr requestURI hne
  refine ⟨longestMatch (strings.Split requestURI '/').tail cr.configSection,
    Traverse_eq_longestMatch _ _ hne, ?_, ?_, ?_⟩
  · constructor
    · rintro ⟨n, hn⟩
      by_contra hneq
      rw [hget, if_pos hneq] at hn
      cases hn
    · intro heq
      exact ⟨_, by rw [hget, if_neg (not_not.mpr heq)]⟩
  · intro heq
    rw [hget, if_neg (not_not.mpr heq)]
  · intro hneq
    rw [hget, if_pos hneq]

/-- Witness of C3 on the index of the test document, for the request
`/section2`. -/
theorem Get_iff_found_matches_endSegment_witness :
    '/' ∈ "/section2".toList ∧
    ∃ found : Section,
      nestedIndex.configSection.Traverse (strings.Split "/section2".toList '/').tail
        = some found ∧
      ((∃ n, nestedIndex.Get "/section2".toList = Result.ok n) ↔
        found.ResourceLocator = (strings.Split "/section2".toList '/').tail.getLastD []) ∧
      (found.ResourceLocator = (strings.Split "/section2".toList '/').tail.getLastD [] →
        nestedIndex.Get "/section2".toList = Result.ok found) ∧
      (found.ResourceLocator ≠ (strings.Split "/section2".toList '/').tail.getLastD [] →
        nestedIndex.Get "/section2".toList
          = Result.error (Error.resourceMismatch found.ResourceLocator
            ((strings.Split "/section2".toList '/').tail.getLastD []))) :=
  ⟨by decide, Get_iff_found_matches_endSegment nestedIndex "/section2".toList (by decide)⟩

/-- On a tree of real nodes: for a non-empty segment list `Section.Traverse`
returns the node reached by following the longest prefix of the segments that can be matched
step by step, each step moving to the first child whose identifier equals the
next segment; when every segment matches, that is the node at the end of the
identifier path, returned as it stands in the tree (name and all other fields
unchanged). -/
theorem Traverse_returns_longest_match (s : Section) (segs : List GoString)
    (h : segs ≠ []) :
    s.Traverse segs = some (longestMatch segs s) ∧
    ∀ n : Section, nodeAt segs s = some n → s.Traverse segs = some n := by
  refine ⟨Traverse_eq_longestMatch segs s h, ?_⟩
  intro n hn
  rw [Traverse_eq_longestMatch segs s h, longestMatch_of_nodeAt segs s n hn]

/-- On a tree of real nodes: when `c` is the first child of `s`, in child
order, whose identifier equals the first segment, `Traverse(s, seg :: rest)` is `c` if `rest` is empty
and `Traverse(c, rest)` otherwise, whatever siblings come after `c` (also
siblings carrying the same identifier). -/
theorem Traverse_first_matching_child (s c : Section) (before after : List Section)
    (seg : GoString) (rest : List GoString)
    (hch : s.Children = before ++ c :: after)
    (hbefore : ∀ x ∈ before, x.ResourceLocator ≠ seg)
    (hc : c.ResourceLocator = seg) :
    s.Traverse (seg :: rest) = if rest = [] then some c else c.Traverse rest := by
  rw [Traverse_cons, firstMatch_of_split s before after c seg hch hbefore hc]
  cases rest with
  | nil => simp
  | cons a l => simp

/-- On a tree of real nodes: when `s` has no children, or no child of `s` has
an identifier equal to the first segment, `Traverse` returns `s` itself, whatever the remaining
segments are. -/
theorem Traverse_no_match_returns_receiver (s : Section) (seg : GoString)
    (rest : List GoString)
    (h : s.Children = [] ∨ ∀ c ∈ s.Children, c.ResourceLocator ≠ seg) :
    s.Traverse (seg :: rest) = some s := by
  have hall : ∀ c ∈ s.Children, c.ResourceLocator ≠ seg := by
    rcases h with h | h
    · intro c hc; rw [h] at hc; simp at hc
    · exact h
  rw [Traverse_cons, firstMatch_eq_none s seg hall]

/-! ## The identifier normalizer and `Section.UnmarshalJSON` -/

theorem IsSpace_ofNat_upper (n : Nat) (h1 : 0x41 ≤ n) (h2 : n ≤ 0x5A) :
    unicode.IsSpace (Char.ofNat (n + 0x20)) = false ∧ unicode.IsSpace (Char.ofNat n) = false ∧
    (Char.ofNat (n + 0x20)).toNat = n + 0x20 := by
  interval_cases n <;> exact ⟨rfl, rfl, rfl⟩

theorem IsSpace_ToLower_ascii (caseLower : Char → Char) (c : Char) (h : c.toNat ≤ 0x7F) :
    unicode.IsSpace (unicode.ToLower caseLower c) = unicode.IsSpace c := by
  unfold unicode.ToLower
  rw [if_pos h]
  by_cases hu : 0x41 ≤ c.toNat ∧ c.toNat ≤ 0x5A
  · rw [if_pos hu]
    have e := IsSpace_ofNat_upper c.toNat hu.1 hu.2
    rw [Char.ofNat_toNat] at e
    rw [e.1, e.2.1]
  · rw [if_neg hu]

theorem IsSpace_ToLower (caseLower : Char → Char)
    (hsp : ∀ c : Char, 0x7F < c.toNat → unicode.IsSpace (caseLower c) = unicode.IsSpace c)
    (c : Char) : unicode.IsSpace (unicode.ToLower caseLower c) = unicode.IsSpace c := by
  by_cases h : c.toNat ≤ 0x7F
  · exact IsSpace_ToLower_ascii caseLower c h
  · have h1 : 0x7F < c.toNat := by omega
    have := hsp c h1
    unfold unicode.ToLower
    rw [if_neg h]
    exact this

theorem ToLower_idem_ascii (caseLower : Char → Char) (c : Char) (h : c.toNat ≤ 0x7F) :
    unicode.ToLower caseLower (unicode.ToLower caseLower c) = unicode.ToLower caseLower c := by
  by_cases hu : 0x41 ≤ c.toNat ∧ c.toNat ≤ 0x5A
  · have e := (IsSpace_ofNat_upper c.toNat hu.1 hu.2).2.2
    have hv : unicode.ToLower caseLower c = Char.ofNat (c.toNat + 0x20) := by
      unfold unicode.ToLower
      rw [if_pos h, if_pos hu]
    rw [hv]
    unfold unicode.ToLower
    have h1 : (Char.ofNat (c.toNat + 0x20)).toNat ≤ 0x7F := by rw [e]; omega
    have h2 : ¬ (0x41 ≤ (Char.ofNat (c.toNat + 0x20)).toNat ∧
        (Char.ofNat (c.toNat + 0x20)).toNat ≤ 0x5A) := by rw [e]; omega
    rw [if_pos h1, if_neg h2]
  · have hv : unicode.ToLower caseLower c = c := by
      unfold unicode.ToLower
      rw [if_pos h, if_neg hu]
    rw [hv, hv]

theorem ToLower_idem (caseLower : Char → Char)
    (hidem : ∀ c : Char, 0x7F < c.toNat →
      unicode.ToLower caseLower (caseLower c) = caseLower c)
    (c : Char) :
    unicode.ToLower caseLower (unicode.ToLower caseLower c) = unicode.ToLower caseLower c := by
  by_cases h : c.toNat ≤ 0x7F
  · exact ToLower_idem_ascii caseLower c h
  · have h1 : 0x7F < c.toNat := by omega
    have hv : unicode.ToLower caseLower c = caseLower c := by
      unfold unicode.ToLower
      rw [if_neg h]
    rw [hv]
    exact hidem c h1

theorem slugify_not_space (r : Char) : unicode.IsSpace (slugify r) = false := by
  unfold slugify
  by_cases h : unicode.IsSpace r = true
  · rw [if_pos h]; rfl
  · rw [if_neg h]; simpa using h

theorem ToLower_underscore (caseLower : Char → Char) :
    unicode.ToLower caseLower '_' = '_' := by
  rfl

theorem normalize_eq_map (caseLower : Char → Char) (s : GoString) :
    normalize caseLower s = s.map (fun c => slugify (unicode.ToLower caseLower c)) := by
  simp [normalize, strings.Map, strings.ToLower]

theorem slugify_ToLower (caseLower : Char → Char)
    (hsp : ∀ c : Char, 0x7F < c.toNat → unicode.IsSpace (caseLower c) = unicode.IsSpace c)
    (c : Char) :
    slugify (unicode.ToLower caseLower c) =
      if unicode.IsSpace c then '_' else unicode.ToLower caseLower c := by
  unfold slugify
  rw [IsSpace_ToLower caseLower hsp c]

theorem ToLower_slugify_ToLower (caseLower : Char → Char)
    (hidem : ∀ c : Char, 0x7F < c.toNat →
      unicode.ToLower caseLower (caseLower c) = caseLower c)
    (c : Char) :
    unicode.ToLower caseLower (slugify (unicode.ToLower caseLower c)) =
      slugify (unicode.ToLower caseLower c) := by
  unfold slugify
  by_cases h : unicode.IsSpace (unicode.ToLower caseLower c) = true
  · rw [if_pos h]; rfl
  · rw [if_neg h]; exact ToLower_idem caseLower hidem c

theorem Section_nodes_eq (s : Section) :
    s.nodes = s :: Section.nodes.list s.Children := by
  obtain ⟨name, children, src, kind, id, rp⟩ := s
  simp [Section.nodes]

theorem UnmarshalJSON_fields (caseLower : Char → Char) (raw : List Char)
    (name : Option GoString) (sections : List Fragment) (type : Option (List Char))
    (resourceId : Option GoString) (t : Section)
    (h : Section.UnmarshalJSON caseLower (Fragment.fields raw name sections type resourceId)
      = Result.ok t) :
    ∃ kind children,
      Section.UnmarshalJSON.elements caseLower sections = Result.ok children ∧
      (match type with
        | none => Result.ok SectionType.COLLECTION
        | some token => SectionType.UnmarshalJSON caseLower token) = Result.ok kind ∧
      t = ⟨name.getD [], children, raw, kind,
        normalize caseLower (Fragment.source (Fragment.fields raw name sections type resourceId)),
        []⟩ := by
  simp only [Section.UnmarshalJSON] at h
  split at h
  · cases h
  · cases h
  · rename_i kind hk
    split at h
    · cases h
    · cases h
    · rename_i children hc
      refine ⟨kind, children, hc, hk, ?_⟩
      injection h with h
      rw [← h]
      simp only [Section.ofAlias, Fragment.source]
      by_cases hr : resourceId.getD [] = []
      · simp [hr]
      · simp [hr]


theorem elements_cons (caseLower : Char → Char) (b : Fragment) (rest : List Fragment)
    (ts : List Section)
    (h : Section.UnmarshalJSON.elements caseLower (b :: rest) = Result.ok ts) :
    ∃ child children, Section.UnmarshalJSON caseLower b = Result.ok child ∧
      Section.UnmarshalJSON.elements caseLower rest = Result.ok children ∧
      ts = child :: children := by
  simp only [Section.UnmarshalJSON.elements] at h
  split at h
  · cases h
  · cases h
  · rename_i child hc
    split at h
    · cases h
    · cases h
    · rename_i children hcs
      injection h with h
      exact ⟨child, children, hc, hcs, h.symm⟩

mutual
theorem nodes_decoded (caseLower : Char → Char) :
    ∀ (b : Fragment) (t : Section), Section.UnmarshalJSON caseLower b = Result.ok t →
      ∀ n ∈ t.nodes, ∃ f ∈ b.nodes, Section.UnmarshalJSON caseLower f = Result.ok n
  | Fragment.invalid raw, t, h => by simp [Section.UnmarshalJSON] at h
  | Fragment.fields raw name sections type resourceId, t, h => by
    obtain ⟨kind, children, hc, _, ht⟩ :=
      UnmarshalJSON_fields caseLower raw name sections type resourceId t h
    intro n hn
    rw [Section_nodes_eq] at hn
    rcases List.mem_cons.mp hn with hn | hn
    · subst hn
      exact ⟨_, by simp [Fragment.nodes], h⟩
    · have hch : t.Children = children := by rw [ht]
      rw [hch] at hn
      obtain ⟨f, hf, hfn⟩ := nodes_list_decoded caseLower sections children hc n hn
      exact ⟨f, by simp [Fragment.nodes, hf], hfn⟩
theorem nodes_list_decoded (caseLower : Char → Char) :
    ∀ (bs : List Fragment) (ts : List Section),
      Section.UnmarshalJSON.elements caseLower bs = Result.ok ts →
      ∀ n ∈ Section.nodes.list ts,
        ∃ f ∈ Fragment.nodes.list bs, Section.UnmarshalJSON caseLower f = Result.ok n
  | [], ts, h => by
    simp only [Section.UnmarshalJSON.elements] at h
    injection h with h
    subst h
    intro n hn
    simp [Section.nodes.list] at hn
  | b :: rest, ts, h => by
    obtain ⟨child, children, hc, hcs, hts⟩ := elements_cons caseLower b rest ts h
    subst hts
    intro n hn
    simp only [Section.nodes.list, List.mem_append] at hn
    rcases hn with hn | hn
    · obtain ⟨f, hf, hfn⟩ := nodes_decoded caseLower b child hc n hn
      exact ⟨f, by simp [Fragment.nodes.list, hf], hfn⟩
    · obtain ⟨f, hf, hfn⟩ := nodes_list_decoded caseLower rest children hcs n hn
      exact ⟨f, by simp [Fragment.nodes.list, hf], hfn⟩
end

theorem UnmarshalJSON_ok_fields (caseLower : Char → Char) (b : Fragment) (t : Section)
    (h : Section.UnmarshalJSON caseLower b = Result.ok t) :
    t.ResourceID = normalize caseLower b.source := by
  cases b with
  | invalid raw => simp [Section.UnmarshalJSON] at h
  | fields raw name sections type resourceId =>
    obtain ⟨kind, children, _, _, ht⟩ :=
      UnmarshalJSON_fields caseLower raw name sections type resourceId t h
    rw [ht]

/-- C7: when `Section.UnmarshalJSON` succeeds on an object, the identifier is
the normalizer applied to the `resourceId` field if that field is present and
non-empty (whatever `name` is), and the normalizer applied to the `name` field
(the empty string when absent) if `resourceId` is absent or empty. -/
theorem UnmarshalJSON_identifier_governed_by (caseLower : Char → Char) (raw : List Char)
    (name : Option GoString) (sections : List Fragment) (type : Option (List Char))
    (resourceId : Option GoString) (t : Section)
    (h : Section.UnmarshalJSON caseLower (Fragment.fields raw name sections type resourceId)
      = Result.ok t) :
    (∀ r : GoString, resourceId = some r → r ≠ [] →
      t.ResourceID = normalize caseLower r) ∧
    ((resourceId = none ∨ resourceId = some []) →
      t.ResourceID = normalize caseLower (name.getD [])) := by
  have ht := UnmarshalJSON_ok_fields caseLower _ t h
  constructor
  · intro r hr hne
    rw [ht, hr]
    simp [Fragment.source, hne]
  · intro hr
    rw [ht]
    rcases hr with hr | hr <;> simp [Fragment.source, hr]

/-- Witness of C7, the test entry `resourceId, includes UpperSpace chars`:
`{"name":"news", "resourceid":"OLdS"}` decodes to the identifier `olds`. -/
theorem UnmarshalJSON_identifier_governed_by_witness :
    Section.UnmarshalJSON (fun c => c) oldsDoc
      = Result.ok ⟨"news".toList, [],
          "\x7b\"name\":\"news\", \"resourceid\":\"OLdS\"\x7d".toList,
          SectionType.COLLECTION, "olds".toList, []⟩ ∧
    ((∀ r : GoString, some "OLdS".toList = some r → r ≠ [] →
        "olds".toList = normalize (fun c => c) r) ∧
      ((some "OLdS".toList = none ∨ some "OLdS".toList = some []) →
        "olds".toList = normalize (fun c => c) ((some "news".toList).getD []))) :=
  ⟨rfl, UnmarshalJSON_identifier_governed_by (fun c => c)
    "\x7b\"name\":\"news\", \"resourceid\":\"OLdS\"\x7d".toList
    (some "news".toList) [] none (some "OLdS".toList)
    ⟨"news".toList, [], "\x7b\"name\":\"news\", \"resourceid\":\"OLdS\"\x7d".toList,
      SectionType.COLLECTION, "olds".toList, []⟩ rfl⟩

/-- C8: in a successfully decoded tree the identifier of every node, root and
descendants alike, contains no whitespace character and is left unchanged by
lower-casing, and it is the governing string of the fragment the node was
decoded from with every whitespace character replaced by `_` and every other
character lower-cased.  The case table is assumed to map no rune onto or
away from a whitespace character and to yield runes that lower-casing leaves
alone, as the Unicode tables do. -/
theorem decoded_identifiers_lowercase_no_space (caseLower : Char → Char)
    (hsp : ∀ c : Char, 0x7F < c.toNat → unicode.IsSpace (caseLower c) = unicode.IsSpace c)
    (hidem : ∀ c : Char, 0x7F < c.toNat →
      unicode.ToLower caseLower (caseLower c) = caseLower c)
    (b : Fragment) (t : Section)
    (h : Section.UnmarshalJSON caseLower b = Result.ok t) :
    ∀ n ∈ t.nodes,
      (∀ c ∈ n.ResourceID, unicode.IsSpace c = false) ∧
      strings.ToLower caseLower n.ResourceID = n.ResourceID ∧
      ∃ f ∈ b.nodes, Section.UnmarshalJSON caseLower f = Result.ok n ∧
        n.ResourceID = f.source.map
          (fun c => if unicode.IsSpace c then '_' else unicode.ToLower caseLower c) := by
  intro n hn
  obtain ⟨f, hf, hfn⟩ := nodes_decoded caseLower b t h n hn
  have hid := UnmarshalJSON_ok_fields caseLower f n hfn
  rw [normalize_eq_map] at hid
  refine ⟨?_, ?_, f, hf, hfn, ?_⟩
  · intro c hc
    rw [hid] at hc
    obtain ⟨x, _, hx⟩ := List.mem_map.mp hc
    rw [← hx]
    exact slugify_not_space _
  · rw [hid]
    simp only [strings.ToLower, List.map_map]
    apply List.map_congr_left
    intro x _
    exact ToLower_slugify_ToLower caseLower hidem x
  · rw [hid]
    apply List.map_congr_left
    intro x _
    exact slugify_ToLower caseLower hsp x

/-- Witness of C8: `NEWS 24` with a child `news 24`; both identifiers are
`news_24`. -/
theorem decoded_identifiers_lowercase_no_space_witness :
    (∃ t : Section, Section.UnmarshalJSON (fun c => c) news24Doc = Result.ok t ∧
      t.nodes.map Section.ResourceID = ["news_24".toList, "news_24".toList]) ∧
    ∀ n ∈ (⟨"NEWS 24".toList,
          [⟨"news 24".toList, [], "\x7b\"name\":\"news 24\"\x7d".toList,
            SectionType.COLLECTION, "news_24".toList, []⟩],
          "\x7b\"name\":\"NEWS 24\",\"section\":[\x7b\"name\":\"news 24\"\x7d]\x7d".toList,
          SectionType.COLLECTION, "news_24".toList, []⟩ : Section).nodes,
      (∀ c ∈ n.ResourceID, unicode.IsSpace c = false) ∧
      strings.ToLower (fun c => c) n.ResourceID = n.ResourceID ∧
      ∃ f ∈ news24Doc.nodes, Section.UnmarshalJSON (fun c => c) f = Result.ok n ∧
        n.ResourceID = f.source.map
          (fun c => if unicode.IsSpace c then '_' else unicode.ToLower (fun c => c) c) :=
  ⟨⟨_, rfl, rfl⟩,
    decoded_identifiers_lowercase_no_space (fun c => c) (fun _ _ => rfl)
      (fun c hc => by
        have : ¬ c.toNat ≤ 0x7F := by omega
        simp [unicode.ToLower, this])
      news24Doc _ rfl⟩

/-- C9 fails on the code: the object `{}` decodes successfully and its
identifier is the empty string. -/
theorem UnmarshalJSON_empty_identifier :
    Section.UnmarshalJSON (fun c => c) emptyObjectDoc
      = Result.ok ⟨[], [], "\x7b\x7d".toList, SectionType.COLLECTION, [], []⟩ ∧
    (⟨[], [], "\x7b\x7d".toList, SectionType.COLLECTION, [], []⟩ : Section).ResourceID = [] :=
  ⟨rfl, rfl⟩

/-- C9, amended: when `Section.UnmarshalJSON` succeeds on an object, the
identifier has as many characters as the string that governs it, so it is
non-empty exactly when the `resourceId` field or the `name` field is present
and non-empty. -/
theorem UnmarshalJSON_identifier_nonempty_iff (caseLower : Char → Char) (raw : List Char)
    (name : Option GoString) (sections : List Fragment) (type : Option (List Char))
    (resourceId : Option GoString) (t : Section)
    (h : Section.UnmarshalJSON caseLower (Fragment.fields raw name sections type resourceId)
      = Result.ok t) :
    t.ResourceID.length
      = (Fragment.source (Fragment.fields raw name sections type resourceId)).length ∧
    (t.ResourceID ≠ [] ↔
      (∃ r : GoString, resourceId = some r ∧ r ≠ []) ∨
      (∃ m : GoString, name = some m ∧ m ≠ [])) := by
  have ht := UnmarshalJSON_ok_fields caseLower _ t h
  rw [normalize_eq_map] at ht
  have hlen : t.ResourceID.length
      = (Fragment.source (Fragment.fields raw name sections type resourceId)).length := by
    rw [ht, List.length_map]
  refine ⟨hlen, ?_⟩
  rw [← List.length_pos, hlen, List.length_pos]
  cases resourceId with
  | none =>
    cases name with
    | none => simp [Fragment.source]
    | some m => simp [Fragment.source]
  | some r =>
    by_cases hr : r = []
    · cases name with
      | none => simp [Fragment.source, hr]
      | some m => simp [Fragment.source, hr]
    · simp [Fragment.source, hr]

/-- Witness of C9 as amended, on `{"name":"news", "resourceid":"OLdS"}`. -/
theorem UnmarshalJSON_identifier_nonempty_iff_witness :
    "olds".toList.length
      = (Fragment.source (Fragment.fields
          "\x7b\"name\":\"news\", \"resourceid\":\"OLdS\"\x7d".toList
          (some "news".toList) [] none (some "OLdS".toList))).length ∧
    ("olds".toList ≠ [] ↔
      (∃ r : GoString, some "OLdS".toList = some r ∧ r ≠ []) ∨
      (∃ m : GoString, some "news".toList = some m ∧ m ≠ [])) :=
  UnmarshalJSON_identifier_nonempty_iff (fun c => c)
    "\x7b\"name\":\"news\", \"resourceid\":\"OLdS\"\x7d".toList
    (some "news".toList) [] none (some "OLdS".toList)
    ⟨"news".toList, [], "\x7b\"name\":\"news\", \"resourceid\":\"OLdS\"\x7d".toList,
      SectionType.COLLECTION, "olds".toList, []⟩ rfl

/-- C10: the normalizer `strings.Map(slugify, strings.ToLower(s))` returns, for
every string, a string of the same number of characters whose character at
position `i` is `_` when the input character at `i` is whitespace and the
lower-case form of the input character otherwise; a character that is neither
whitespace nor changed by lower-casing is kept, and the empty string maps to
the empty string.  The case table is assumed to map no rune onto or away from
a whitespace character, as the Unicode tables do. -/
theorem normalize_characterwise (caseLower : Char → Char)
    (hsp : ∀ c : Char, 0x7F < c.toNat → unicode.IsSpace (caseLower c) = unicode.IsSpace c)
    (s : GoString) :
    (normalize caseLower s).length = s.length ∧
    (∀ i : Nat, (normalize caseLower s)[i]? =
      (s[i]?).map (fun c => if unicode.IsSpace c then '_' else unicode.ToLower caseLower c)) ∧
    (∀ (i : Nat) (c : Char), s[i]? = some c → unicode.IsSpace c = false →
      unicode.ToLower caseLower c = c → (normalize caseLower s)[i]? = some c) ∧
    normalize caseLower [] = [] := by
  have hmap : normalize caseLower s = s.map
      (fun c => if unicode.IsSpace c then '_' else unicode.ToLower caseLower c) := by
    rw [normalize_eq_map]
    apply List.map_congr_left
    intro x _
    exact slugify_ToLower caseLower hsp x
  have hpos : ∀ i : Nat, (normalize caseLower s)[i]? =
      (s[i]?).map (fun c => if unicode.IsSpace c then '_' else unicode.ToLower caseLower c) := by
    intro i
    rw [hmap, List.getElem?_map]
  refine ⟨by rw [hmap, List.length_map], hpos, ?_, rfl⟩
  intro i c hc hns hlow
  rw [hpos i, hc]
  simp [hns, hlow]

/-- Witness of C10 on `NEWS 24`, which the normalizer turns into `news_24`. -/
theorem normalize_characterwise_witness :
    normalize (fun c => c) "NEWS 24".toList = "news_24".toList ∧
    ((normalize (fun c => c) "NEWS 24".toList).length = "NEWS 24".toList.length ∧
    (∀ i : Nat, (normalize (fun c => c) "NEWS 24".toList)[i]? =
      ("NEWS 24".toList[i]?).map
        (fun c => if unicode.IsSpace c then '_' else unicode.ToLower (fun c => c) c)) ∧
    (∀ (i : Nat) (c : Char), "NEWS 24".toList[i]? = some c → unicode.IsSpace c = false →
      unicode.ToLower (fun c => c) c = c →
      (normalize (fun c => c) "NEWS 24".toList)[i]? = some c) ∧
    normalize (fun c => c) [] = []) :=
  ⟨rfl, normalize_characterwise (fun c => c) (fun _ _ => rfl) "NEWS 24".toList⟩

/-! ## Full paths: `path.Join` on plain identifiers -/

theorem takeWhile_append_slash (e tail : List Char) (he : '/' ∉ e)
    (htail : tail = [] ∨ ∃ t, tail = '/' :: t) :
    (e ++ tail).takeWhile (fun x => x ≠ '/') = e ∧
    (e ++ tail).dropWhile (fun x => x ≠ '/') = tail := by
  induction e with
  | nil =>
    rcases htail with h | ⟨t, h⟩
    · subst h; simp
    · subst h; simp
  | cons c e ih =>
    have hc : c ≠ '/' := fun h => he (by simp [h])
    have he1 : '/' ∉ e := fun h => he (by simp [h])
    obtain ⟨h1, h2⟩ := ih he1
    simp [List.takeWhile, List.dropWhile, hc] at h1 h2 ⊢
    exact ⟨h1, h2⟩

theorem Clean_loop_nil (rooted : Bool) (fuel : Nat) (out : List Char) (dotdot : Nat) :
    path.Clean.loop rooted fuel [] out dotdot = out := by
  cases fuel <;> simp [path.Clean.loop]

theorem Clean_loop_element (fuel : Nat) (e tail out : List Char) (he : plainId e)
    (htail : tail = [] ∨ ∃ t, tail = '/' :: t) :
    path.Clean.loop false (fuel + 1) (e ++ tail) out 0 =
      path.Clean.loop false fuel tail
        (e.reverse ++ (if out.length ≠ 0 then '/' :: out else out)) 0 := by
  obtain ⟨hne, hslash, hdot, hdotdot⟩ := he
  cases e with
  | nil => exact absurd rfl hne
  | cons c e1 =>
    have hc : c ≠ '/' := fun h => hslash (by simp [h])
    have he1 : '/' ∉ e1 := fun h => hslash (by simp [h])
    obtain ⟨htake, hdrop⟩ := takeWhile_append_slash e1 tail he1 htail
    have h2 : ¬ (c = '.' ∧ (e1 ++ tail = [] ∨ (e1 ++ tail).head? = some '/')) := by
      rintro ⟨hcd, h⟩
      cases e1 with
      | nil => exact hdot (by rw [hcd])
      | cons d e2 =>
        have hd : d ≠ '/' := fun h => he1 (by simp [h])
        simp [hd] at h
    have h3 : ¬ (c = '.' ∧ (e1 ++ tail).head? = some '.' ∧
        ((e1 ++ tail).tail = [] ∨ (e1 ++ tail).tail.head? = some '/')) := by
      rintro ⟨hcd, hh, h⟩
      cases e1 with
      | nil => exact hdot (by rw [hcd])
      | cons d e2 =>
        have hd : d = '.' := by simpa using hh
        cases e2 with
        | nil => exact hdotdot (by rw [hcd, hd])
        | cons x e3 =>
          have hx : x ≠ '/' := fun h => he1 (by simp [h])
          simp [hx] at h
    rw [List.cons_append]
    generalize e1 ++ tail = rest at htake hdrop h2 h3
    simp only [path.Clean.loop, if_neg hc, if_neg h2, if_neg h3]
    rw [htake, hdrop]
    simp

theorem joinSegs_cons_cons (i j : GoString) (rest : List GoString) :
    joinSegs (i :: j :: rest) = i ++ '/' :: joinSegs (j :: rest) := rfl

theorem joinSegs_ne_nil (chain : List GoString) (hne : chain ≠ [])
    (h : ∀ i ∈ chain, plainId i) : joinSegs chain ≠ [] := by
  cases chain with
  | nil => exact absurd rfl hne
  | cons i rest =>
    have hi := (h i (by simp)).1
    cases rest with
    | nil => simpa [joinSegs] using hi
    | cons j rest => simp [joinSegs, hi]

theorem Clean_loop_joinSegs (chain : List GoString) :
    ∀ (fuel : Nat) (out : List Char), chain ≠ [] → (∀ i ∈ chain, plainId i) →
      (joinSegs chain).length ≤ fuel →
      path.Clean.loop false fuel (joinSegs chain) out 0 =
        (joinSegs chain).reverse ++ (if out.length ≠ 0 then '/' :: out else out) := by
  induction chain with
  | nil => intro fuel out h; exact absurd rfl h
  | cons e rest ih =>
    intro fuel out _ hall hfuel
    have he := hall e (by simp)
    have hlen : 1 ≤ e.length := by
      cases e with
      | nil => exact absurd rfl he.1
      | cons c e1 => simp
    cases rest with
    | nil =>
      simp only [joinSegs] at hfuel ⊢
      obtain ⟨f, rfl⟩ : ∃ f, fuel = f + 1 := ⟨fuel - 1, by omega⟩
      have := Clean_loop_element f e [] out he (Or.inl rfl)
      rw [List.append_nil] at this
      rw [this, Clean_loop_nil]
    | cons j rest =>
      rw [joinSegs_cons_cons] at hfuel ⊢
      simp only [List.length_append, List.length_cons] at hfuel
      obtain ⟨f, rfl⟩ : ∃ f, fuel = f + 2 := ⟨fuel - 2, by omega⟩
      rw [Clean_loop_element (f + 1) e ('/' :: joinSegs (j :: rest)) out he
        (Or.inr ⟨_, rfl⟩)]
      have hstep : ∀ o : List Char,
          path.Clean.loop false (f + 1) ('/' :: joinSegs (j :: rest)) o 0 =
            path.Clean.loop false f (joinSegs (j :: rest)) o 0 := by
        intro o
        simp [path.Clean.loop]
      rw [hstep, ih f _ (by simp) (fun i hi => hall i (by simp [hi])) (by omega)]
      have hout : (e.reverse ++ (if out.length ≠ 0 then '/' :: out else out)).length ≠ 0 := by
        simp only [List.length_append, List.length_reverse]
        omega
      rw [if_pos hout]
      simp

theorem Clean_joinSegs (chain : List GoString) (hne : chain ≠ [])
    (h : ∀ i ∈ chain, plainId i) : path.Clean (joinSegs chain) = joinSegs chain := by
  have hj := joinSegs_ne_nil chain hne h
  have hfirst : ∀ c rest, joinSegs chain = c :: rest → c ≠ '/' := by
    intro c rest hcr hc
    cases chain with
    | nil => exact absurd rfl hne
    | cons i more =>
      have hi := h i (by simp)
      cases i with
      | nil => exact absurd rfl hi.1
      | cons x i1 =>
        have hx : x = c := by
          cases more with
          | nil => simp [joinSegs] at hcr; exact hcr.1
          | cons j more => simp [joinSegs] at hcr; exact hcr.1
        exact hi.2.1 (by simp [hx, hc])
  cases hcr : joinSegs chain with
  | nil => exact absurd hcr hj
  | cons c rest =>
    have hc := hfirst c rest hcr
    have hloop := Clean_loop_joinSegs chain (rest.length + 2) [] hne h
      (by rw [hcr]; simp)
    rw [hcr] at hloop
    simp only [path.Clean, if_neg hc, hloop]
    simp

theorem joinSegs_snoc (chain : List GoString) (i : GoString) (hne : chain ≠ []) :
    joinSegs (chain ++ [i]) = joinSegs chain ++ '/' :: i := by
  induction chain with
  | nil => exact absurd rfl hne
  | cons e rest ih =>
    cases rest with
    | nil => simp [joinSegs]
    | cons j rest =>
      have := ih (by simp)
      simp only [List.cons_append] at this ⊢
      rw [joinSegs_cons_cons, joinSegs_cons_cons, this]
      simp

theorem Join_joinSegs (chain : List GoString) (i : GoString)
    (h : ∀ x ∈ chain, plainId x) (hi : plainId i) :
    path.Join [joinSegs chain, i] = joinSegs (chain ++ [i]) := by
  have hsum : ¬ ([joinSegs chain, i].map List.length).sum = 0 := by
    have : i.length ≠ 0 := by
      intro h0
      exact hi.1 (List.length_eq_zero.mp h0)
    simp only [List.map_cons, List.map_nil, List.sum_cons, List.sum_nil]
    omega
  have hall : ∀ x ∈ chain ++ [i], plainId x := by
    intro x hx
    rcases List.mem_append.mp hx with hx | hx
    · exact h x hx
    · rw [List.mem_singleton.mp hx]; exact hi
  unfold path.Join
  rw [if_neg hsum, ← Clean_joinSegs (chain ++ [i]) (by simp) hall]
  congr 1
  by_cases hc : chain = []
  · subst hc
    simp [path.Join.buf, joinSegs, hi.1]
  · have hj := joinSegs_ne_nil chain hc h
    have hpos : (joinSegs chain).length > 0 := List.length_pos.mpr hj
    rw [joinSegs_snoc chain i hc]
    simp [path.Join.buf, hj, hpos]

theorem Split_cons_sep (s : GoString) (sep : Char) :
    strings.Split (sep :: s) sep = [] :: strings.Split s sep := by
  simp [strings.Split]

theorem Split_append_sep (e t : GoString) (sep : Char) (he : sep ∉ e) :
    strings.Split (e ++ sep :: t) sep = e :: strings.Split t sep := by
  induction e with
  | nil => simp [strings.Split]
  | cons c e ih =>
    have hc : c ≠ sep := fun h => he (by simp [h])
    have he1 : sep ∉ e := fun h => he (by simp [h])
    simp [strings.Split, hc, ih he1]

theorem Split_no_sep (e : GoString) (sep : Char) (he : sep ∉ e) :
    strings.Split e sep = [e] := by
  induction e with
  | nil => simp [strings.Split]
  | cons c e ih =>
    have hc : c ≠ sep := fun h => he (by simp [h])
    have he1 : sep ∉ e := fun h => he (by simp [h])
    simp [strings.Split, hc, ih he1]

theorem Split_joinSegs (chain : List GoString) (hne : chain ≠ [])
    (h : ∀ i ∈ chain, '/' ∉ i) : strings.Split (joinSegs chain) '/' = chain := by
  induction chain with
  | nil => exact absurd rfl hne
  | cons e rest ih =>
    cases rest with
    | nil => simpa [joinSegs] using Split_no_sep e '/' (h e (by simp))
    | cons j rest =>
      rw [joinSegs_cons_cons, Split_append_sep e _ '/' (h e (by simp)),
        ih (by simp) (fun i hi => h i (by simp [hi]))]

/-! ## Full paths: `updateResourceRoutes` and the round trip through `Get` -/

theorem setRoutes_fields (p : GoString) (s : Section) :
    (Section.setRoutes p s).requestPath = p ∧
    (Section.setRoutes p s).ResourceID = s.ResourceID ∧
    (Section.setRoutes p s).Children = Section.setRoutes.range p s.Children := by
  obtain ⟨name, children, src, kind, id, rp⟩ := s
  simp [Section.setRoutes]

mutual
theorem setRoutes_Routed : ∀ (s : Section) (p : GoString), (Section.setRoutes p s).Routed
  | ⟨name, children, src, kind, id, rp⟩, p => by
    simp only [Section.setRoutes, Section.Routed]
    exact setRoutes_range_Routed children p
theorem setRoutes_range_Routed : ∀ (children : List Section) (p : GoString),
    Section.Routed.list p (Section.setRoutes.range p children)
  | [], p => by simp [Section.setRoutes.range, Section.Routed.list]
  | child :: more, p => by
    simp only [Section.setRoutes.range, Section.Routed.list]
    obtain ⟨h1, h2, _⟩ := setRoutes_fields (path.Join [p, child.ResourceID]) child
    exact ⟨by rw [h1, h2], setRoutes_Routed child _, setRoutes_range_Routed more p⟩
end

theorem Routed_eq (s : Section) : s.Routed = Section.Routed.list s.requestPath s.Children := by
  obtain ⟨name, children, src, kind, id, rp⟩ := s
  simp [Section.Routed]

theorem firstMatch_of_mem_nodup (s c : Section) (hc : c ∈ s.Children)
    (hnd : (s.Children.map Section.ResourceID).Nodup) :
    firstMatch s c.ResourceID = some c := by
  unfold firstMatch
  generalize s.Children = l at hc hnd
  induction l with
  | nil => simp at hc
  | cons x xs ih =>
    rw [List.map_cons, List.nodup_cons] at hnd
    by_cases hx : c.ResourceID = x.ResourceLocator
    · have hcx : c = x := by
        rcases List.mem_cons.mp hc with h | h
        · exact h
        · exact absurd (List.mem_map.mpr ⟨c, h, hx⟩) hnd.1
      simp [List.find?, hcx, Section.ResourceLocator]
    · have hcx : c ∈ xs := by
        rcases List.mem_cons.mp hc with h | h
        · exact absurd (by rw [h]; rfl) hx
        · exact h
      simp only [List.find?, hx, decide_False]
      exact ih hcx hnd.2

theorem mem_nodes_list_of_mem (cs : List Section) (c : Section) (hc : c ∈ cs) :
    c ∈ Section.nodes.list cs := by
  induction cs with
  | nil => simp at hc
  | cons x xs ih =>
    simp only [Section.nodes.list, List.mem_append]
    rcases List.mem_cons.mp hc with h | h
    · left; rw [h, Section_nodes_eq]; simp
    · right; exact ih h

mutual
theorem route_of_node : ∀ (u : Section) (chain0 : List GoString),
    (∀ i ∈ chain0, plainId i) → u.requestPath = joinSegs chain0 → u.Routed →
    (∀ n ∈ Section.nodes.list u.Children, plainId n.ResourceID) →
    (∀ n ∈ u.nodes, (n.Children.map Section.ResourceID).Nodup) →
    ∀ N ∈ Section.nodes.list u.Children,
      ∃ chain : List GoString, chain ≠ [] ∧ (∀ i ∈ chain, plainId i) ∧
        N.requestPath = joinSegs (chain0 ++ chain) ∧ nodeAt chain u = some N ∧
        chain.getLastD [] = N.ResourceID
  | ⟨name, children, src, kind, id, rp⟩, chain0, h0, hrp, hrouted, hplain, hnd, N, hN => by
    simp only [Section.Routed] at hrouted
    simp only at hrp hN hplain
    subst hrp
    obtain ⟨c, hc, rest, hrest, hpath, hat, hlast⟩ :=
      route_of_nodes children chain0 h0 hrouted hplain
        (fun n hn => hnd n (by simp [Section.nodes, hn])) N hN
    refine ⟨c.ResourceID :: rest, by simp, ?_, hpath, ?_, hlast⟩
    · intro i hi
      rcases List.mem_cons.mp hi with h | h
      · rw [h]
        apply hplain
        exact mem_nodes_list_of_mem children c hc
      · exact hrest i h
    · have hfm := firstMatch_of_mem_nodup ⟨name, children, src, kind, id, joinSegs chain0⟩ c hc
        (hnd _ (by simp [Section.nodes]))
      simp only [nodeAt, hfm]
      exact hat
theorem route_of_nodes : ∀ (cs : List Section) (chain0 : List GoString),
    (∀ i ∈ chain0, plainId i) → Section.Routed.list (joinSegs chain0) cs →
    (∀ n ∈ Section.nodes.list cs, plainId n.ResourceID) →
    (∀ n ∈ Section.nodes.list cs, (n.Children.map Section.ResourceID).Nodup) →
    ∀ N ∈ Section.nodes.list cs,
      ∃ c ∈ cs, ∃ rest : List GoString, (∀ i ∈ rest, plainId i) ∧
        N.requestPath = joinSegs (chain0 ++ c.ResourceID :: rest) ∧ nodeAt rest c = some N ∧
        (c.ResourceID :: rest).getLastD [] = N.ResourceID
  | [], chain0, _, _, _, _, N, hN => by simp [Section.nodes.list] at hN
  | c :: more, chain0, h0, hrouted, hplain, hnd, N, hN => by
    simp only [Section.Routed.list] at hrouted
    obtain ⟨hcp, hcr, hmore⟩ := hrouted
    have hcid : plainId c.ResourceID :=
      hplain c (mem_nodes_list_of_mem (c :: more) c (by simp))
    rw [Join_joinSegs chain0 c.ResourceID h0 hcid] at hcp
    simp only [Section.nodes.list, List.mem_append] at hN
    rcases hN with hN | hN
    · rw [Section_nodes_eq] at hN
      rcases List.mem_cons.mp hN with hN | hN
      · subst hN
        exact ⟨N, by simp, [], by simp, hcp, rfl, rfl⟩
      · have h0c : ∀ i ∈ chain0 ++ [c.ResourceID], plainId i := by
          intro i hi
          rcases List.mem_append.mp hi with h | h
          · exact h0 i h
          · rw [List.mem_singleton.mp h]; exact hcid
        obtain ⟨chain, hne, hch, hpath, hat, hlast⟩ :=
          route_of_node c (chain0 ++ [c.ResourceID]) h0c hcp hcr
            (fun n hn => hplain n (by
              simp only [Section.nodes.list, List.mem_append]
              left; rw [Section_nodes_eq]; simp [hn]))
            (fun n hn => hnd n (by simp [Section.nodes.list, hn])) N hN
        refine ⟨c, by simp, chain, hch, by simpa using hpath, hat, ?_⟩
        cases chain with
        | nil => exact absurd rfl hne
        | cons x xs => simpa using hlast
    · obtain ⟨c1, hc1, rest, hrest, hpath, hat, hlast⟩ :=
        route_of_nodes more chain0 h0 hmore
          (fun n hn => hplain n (by simp [Section.nodes.list, hn]))
          (fun n hn => hnd n (by simp [Section.nodes.list, hn])) N hN
      exact ⟨c1, by simp [hc1], rest, hrest, hpath, hat, hlast⟩
end

theorem Get_slash_requestPath_of_routed (u : Section) (hrp : u.requestPath = [])
    (hrouted : u.Routed)
    (hplain : ∀ n ∈ Section.nodes.list u.Children, plainId n.ResourceID)
    (hnd : ∀ n ∈ u.nodes, (n.Children.map Section.ResourceID).Nodup)
    (N : Section) (hN : N ∈ Section.nodes.list u.Children) :
    ConfigGetter.Get ⟨u⟩ ('/' :: N.requestPath) = Result.ok N := by
  obtain ⟨chain, hne, hch, hpath, hat, hlast⟩ :=
    route_of_node u [] (by simp) (by simpa [joinSegs] using hrp) hrouted hplain hnd N hN
  rw [List.nil_append] at hpath
  have hsplit : strings.Split ('/' :: N.requestPath) '/' = [] :: chain := by
    rw [Split_cons_sep, hpath, Split_joinSegs chain hne (fun i hi => (hch i hi).2.1)]
  have htail : (strings.Split ('/' :: N.requestPath) '/').tail = chain := by
    rw [hsplit]; rfl
  rw [Get_of_segments _ _ (by rw [htail]; exact hne), htail,
    longestMatch_of_nodeAt chain u N hat]
  exact if_neg (not_not.mpr hlast.symm)

theorem UnmarshalJSON_requestPath (caseLower : Char → Char) (b : Fragment) (s : Section)
    (h : Section.UnmarshalJSON caseLower b = Result.ok s) : s.requestPath = [] := by
  cases b with
  | invalid raw => simp [Section.UnmarshalJSON] at h
  | fields raw name sections type resourceId =>
    obtain ⟨kind, children, _, _, ht⟩ :=
      UnmarshalJSON_fields caseLower raw name sections type resourceId s h
    rw [ht]

theorem NewConfigGetter_built (caseLower : Char → Char) (configSource : Fragment)
    (cr : ConfigGetter) (err : Option Error)
    (h : NewConfigGetter caseLower configSource = some (cr, err)) :
    ∃ s : Section, s.requestPath = [] ∧ cr.configSection = Section.setRoutes [] s ∧
      ((err = none ∧ Section.UnmarshalJSON caseLower configSource = Result.ok s) ∨
        (∃ e, err = some e ∧ Section.UnmarshalJSON caseLower configSource = Result.error e ∧
          s = Section.zero)) := by
  unfold NewConfigGetter ConfigGetter.readConfig at h
  cases hd : Section.UnmarshalJSON caseLower configSource with
  | panic => rw [hd] at h; cases h
  | error e =>
    rw [hd] at h
    simp only [Option.some.injEq, Prod.mk.injEq] at h
    refine ⟨Section.zero, rfl, ?_, Or.inr ⟨e, h.2.symm, rfl, rfl⟩⟩
    rw [← h.1]
    rfl
  | ok s =>
    rw [hd] at h
    have hs := UnmarshalJSON_requestPath caseLower configSource s hd
    simp only [Option.some.injEq, Prod.mk.injEq] at h
    refine ⟨s, hs, ?_, Or.inl ⟨h.2.symm, rfl⟩⟩
    rw [← h.1]
    simp only [Section.updateResourceRoutes, hs]

/-- C2 fails on the code.  On the index built from the test document the node
`section1` has the full path `section1`, and `Get("section1")` is the
malformed-path error (the piece before the first `/` is discarded and nothing
is left); the root has the full path `""` and `Get("")` fails the same way.
With the leading `/` added the lookup still fails for a node below the second
of two siblings with the same identifier, and for an identifier that contains
`/`. -/
theorem Get_requestPath_fails :
    (NewConfigGetter (fun c => c) nestedDoc = some (nestedIndex, none) ∧
      ({ section1 with requestPath := "section1".toList } : Section)
        ∈ nestedIndex.configSection.nodes ∧
      nestedIndex.Get "section1".toList
        = Result.error (Error.notEnoughSegments "section1".toList) ∧
      nestedIndex.configSection.requestPath = [] ∧
      nestedIndex.Get [] = Result.error (Error.notEnoughSegments [])) ∧
    (NewConfigGetter (fun c => c) twinsDoc = some (twinsIndex, none) ∧
      twinsB ∈ twinsIndex.configSection.nodes ∧
      twinsIndex.Get twinsB.requestPath = Result.error
        (Error.resourceMismatch "root".toList "b".toList) ∧
      twinsIndex.Get ('/' :: twinsB.requestPath) = Result.error
        (Error.resourceMismatch "a".toList "b".toList)) ∧
    (NewConfigGetter (fun c => c) slashDoc = some (slashIndex, none) ∧
      slashChild ∈ slashIndex.configSection.nodes ∧
      slashIndex.Get ('/' :: slashChild.requestPath) = Result.error
        (Error.resourceMismatch "root".toList "b".toList)) := by
  refine ⟨⟨rfl, ?_, rfl, rfl, rfl⟩, ⟨rfl, ?_, rfl, rfl⟩, ⟨rfl, ?_, rfl⟩⟩
  · exact List.Mem.tail _ (List.Mem.head _)
  · exact List.Mem.tail _ (List.Mem.tail _ (List.Mem.tail _ (List.Mem.head _)))
  · exact List.Mem.tail _ (List.Mem.head _)

/-- C2, amended: for every tree built by `NewConfigGetter` in which every
identifier below the root is non-empty, free of `/` and neither `.` nor `..`,
and in which the children of each node have pairwise distinct identifiers,
and for every node `N` below the root with full path `P`, `Get("/" + P)`
succeeds and returns a node whose identifier equals that of `N`. -/
theorem Get_slash_requestPath_identifier (caseLower : Char → Char)
    (configSource : Fragment) (cr : ConfigGetter) (err : Option Error)
    (hbuilt : NewConfigGetter caseLower configSource = some (cr, err))
    (hplain : ∀ n ∈ Section.nodes.list cr.configSection.Children, plainId n.ResourceID)
    (hdistinct : ∀ n ∈ cr.configSection.nodes, (n.Children.map Section.ResourceID).Nodup)
    (N : Section) (hN : N ∈ Section.nodes.list cr.configSection.Children) :
    ∃ found : Section, cr.Get ('/' :: N.requestPath) = Result.ok found ∧
      found.ResourceID = N.ResourceID := by
  obtain ⟨s, _, hcr, _⟩ := NewConfigGetter_built caseLower configSource cr err hbuilt
  have hrp : cr.configSection.requestPath = [] := by
    rw [hcr]; exact (setRoutes_fields [] s).1
  have hrouted : cr.configSection.Routed := by
    rw [hcr]; exact setRoutes_Routed s []
  exact ⟨N, Get_slash_requestPath_of_routed cr.configSection hrp hrouted hplain hdistinct
    N hN, rfl⟩

/-- Witness of C2 as amended: the node `section2` of the index built from the
test document, whose full path is `section2`. -/
theorem Get_slash_requestPath_identifier_witness :
    ∃ found : Section,
      nestedIndex.Get ('/' :: ({ section2 with requestPath := "section2".toList } :
        Section).requestPath) = Result.ok found ∧
      found.ResourceID
        = ({ section2 with requestPath := "section2".toList } : Section).ResourceID :=
  Get_slash_requestPath_identifier (fun c => c) nestedDoc nestedIndex none rfl
    (by decide) (by decide) { section2 with requestPath := "section2".toList }
    (List.Mem.tail _ (List.Mem.head _))

/-! ## Whitespace runs and the type classifier -/

/-- C11 fails on the code: a name with two adjacent spaces yields two `_`, not
one; `news  24` becomes `news__24`, also as the identifier of a decoded
node. -/
theorem normalize_keeps_whitespace_run_length :
    normalize (fun c => c) "news  24".toList = "news__24".toList ∧
    normalize (fun c => c) "news  24".toList ≠ "news_24".toList ∧
    Section.UnmarshalJSON (fun c => c) twoSpacesDoc
      = Result.ok ⟨"news  24".toList, [], "\x7b\"name\":\"news  24\"\x7d".toList,
          SectionType.COLLECTION, "news__24".toList, []⟩ := by
  refine ⟨rfl, by decide, rfl⟩

/-- C11, amended: the normalizer replaces every whitespace character by one
`_`, so a run of `n` consecutive whitespace characters yields `n` separators
at that place and the text before and after the run is normalized on its own.
The case table is assumed to map no rune onto or away from a whitespace
character, as the Unicode tables do. -/
theorem normalize_whitespace_run (caseLower : Char → Char)
    (hsp : ∀ c : Char, 0x7F < c.toNat → unicode.IsSpace (caseLower c) = unicode.IsSpace c)
    (before run after : GoString) (hrun : ∀ c ∈ run, unicode.IsSpace c = true) :
    normalize caseLower (before ++ run ++ after) =
      normalize caseLower before ++ List.replicate run.length '_' ++
        normalize caseLower after := by
  have hr : normalize caseLower run = List.replicate run.length '_' := by
    rw [normalize_eq_map]
    apply List.ext_getElem
    · simp
    · intro i h1 h2
      simp only [List.getElem_map, List.getElem_replicate]
      rw [slugify_ToLower caseLower hsp, if_pos (hrun _ (List.getElem_mem _))]
  rw [← hr]
  simp only [normalize_eq_map, List.map_append]

/-- Witness of C11 as amended: the two spaces of `news  24`. -/
theorem normalize_whitespace_run_witness :
    normalize (fun c => c) ("news".toList ++ [' ', ' '] ++ "24".toList) =
      normalize (fun c => c) "news".toList ++ List.replicate [' ', ' '].length '_' ++
        normalize (fun c => c) "24".toList :=
  normalize_whitespace_run (fun c => c) (fun _ _ => rfl) "news".toList [' ', ' ']
    "24".toList (by decide)

theorem quoted_token_text (text : List Char) :
    ¬ ('"' :: (text ++ ['"'])).length < 2 ∧
    (('"' :: (text ++ ['"'])).drop 1).take (('"' :: (text ++ ['"'])).length - 1 - 1) = text := by
  constructor
  · simp
  · simp

theorem UnmarshalJSON_eq_kindOfToken (caseLower : Char → Char) (b : List Char)
    (h : ¬ b.length < 2) :
    SectionType.UnmarshalJSON caseLower b =
      match kindOfToken (strings.ToLower caseLower ((b.drop 1).take (b.length - 1 - 1))) with
      | some kind => Result.ok kind
      | none => Result.error Error.parseSectionType := by
  unfold SectionType.UnmarshalJSON kindOfToken
  rw [if_neg h]
  generalize strings.ToLower caseLower ((b.drop 1).take (b.length - 1 - 1)) = ctype
  by_cases h1 : ctype = "recommendations".toList
  · subst h1; rfl
  by_cases h2 : ctype = "wcmstopic".toList
  · subst h2; rfl
  by_cases h3 : ctype = "item".toList
  · subst h3; rfl
  by_cases h4 : ctype = "topiccontent".toList
  · subst h4; rfl
  by_cases h5 : ctype = "section".toList
  · subst h5; rfl
  simp only [h1, h2, h3, h4, h5, if_false]

theorem receiver_eq_UnmarshalJSON (caseLower : Char → Char) (s : SectionType)
    (b : List Char) :
    SectionType.UnmarshalJSON.receiver caseLower s b =
      match SectionType.UnmarshalJSON caseLower b with
      | Result.ok kind => some (kind, none)
      | Result.error e => some (s, some e)
      | Result.panic => none := by
  unfold SectionType.UnmarshalJSON.receiver SectionType.UnmarshalJSON
  by_cases h : b.length < 2
  · simp only [if_pos h]
  · simp only [if_neg h]
    generalize strings.ToLower caseLower ((b.drop 1).take (b.length - 1 - 1)) = ctype
    by_cases h1 : ctype = "recommendations".toList
    · simp only [if_pos h1]
    by_cases h2 : ctype = "wcmstopic".toList
    · simp only [if_neg h1, if_pos h2]
    by_cases h3 : ctype = "item".toList
    · simp only [if_neg h1, if_neg h2, if_pos h3]
    by_cases h4 : ctype = "topiccontent".toList
    · simp only [if_neg h1, if_neg h2, if_neg h3, if_pos h4]
    by_cases h5 : ctype = "section".toList
    · simp only [if_neg h1, if_neg h2, if_neg h3, if_neg h4, if_pos h5]
    simp only [if_neg h1, if_neg h2, if_neg h3, if_neg h4, if_neg h5]

theorem kindOfToken_isSome_iff (token : GoString) :
    (∃ kind, kindOfToken token = some kind) ↔
      token ∈ ["section".toList, "item".toList, "wcmstopic".toList,
        "recommendations".toList, "topiccontent".toList] := by
  unfold kindOfToken
  by_cases h1 : token = "section".toList
  · simp [h1]
  by_cases h2 : token = "item".toList
  · simp [h2]
  by_cases h3 : token = "wcmstopic".toList
  · simp [h3]
  by_cases h4 : token = "recommendations".toList
  · simp [h4]
  by_cases h5 : token = "topiccontent".toList
  · simp [h5]
  rw [if_neg h1, if_neg h2, if_neg h3, if_neg h4, if_neg h5]
  constructor
  · rintro ⟨kind, hk⟩
    cases hk
  · intro hm
    simp only [List.mem_cons, List.mem_singleton, List.not_mem_nil, or_false] at hm
    rcases hm with h | h | h | h | h
    · exact absurd h h1
    · exact absurd h h2
    · exact absurd h h3
    · exact absurd h h4
    · exact absurd h h5

theorem ToLower_ascii_table_free (caseLower : Char → Char) (text : GoString)
    (h : ∀ c ∈ text, c.toNat ≤ 0x7F) :
    strings.ToLower caseLower text = strings.ToLower (fun c => c) text := by
  unfold strings.ToLower
  apply List.map_congr_left
  intro c hc
  simp only [unicode.ToLower, if_pos (h c hc)]

/-- C12: on a quoted token `"text"`, `SectionType.UnmarshalJSON` succeeds
exactly when the lower-cased text is one of `section`, `item`, `wcmstopic`,
`recommendations`, `topiccontent`, and the kind it stores is then the one the
table gives for that word; on every other quoted token it returns the
unrecognized-type error and the receiver keeps the value it had.  For a text
of ASCII characters the comparison does not depend on the Unicode case
table. -/
theorem UnmarshalJSON_quoted_token (caseLower : Char → Char) (text : List Char)
    (s : SectionType) :
    SectionType.UnmarshalJSON caseLower ('"' :: (text ++ ['"'])) =
      (match kindOfToken (strings.ToLower caseLower text) with
        | some kind => Result.ok kind
        | none => Result.error Error.parseSectionType) ∧
    ((∃ kind, SectionType.UnmarshalJSON caseLower ('"' :: (text ++ ['"'])) = Result.ok kind) ↔
      strings.ToLower caseLower text ∈ ["section".toList, "item".toList,
        "wcmstopic".toList, "recommendations".toList, "topiccontent".toList]) ∧
    SectionType.UnmarshalJSON.receiver caseLower s ('"' :: (text ++ ['"'])) =
      (match kindOfToken (strings.ToLower caseLower text) with
        | some kind => some (kind, none)
        | none => some (s, some Error.parseSectionType)) ∧
    ((∀ c ∈ text, c.toNat ≤ 0x7F) →
      strings.ToLower caseLower text = strings.ToLower (fun c => c) text) := by
  obtain ⟨hlen, htext⟩ := quoted_token_text text
  have hres := UnmarshalJSON_eq_kindOfToken caseLower _ hlen
  rw [htext] at hres
  refine ⟨hres, ?_, ?_, ToLower_ascii_table_free caseLower text⟩
  · rw [← kindOfToken_isSome_iff, hres]
    cases kindOfToken (strings.ToLower caseLower text) with
    | none =>
      constructor
      · rintro ⟨kind, hk⟩; cases hk
      · rintro ⟨kind, hk⟩; cases hk
    | some k =>
      constructor
      · intro _; exact ⟨k, rfl⟩
      · intro _; exact ⟨k, rfl⟩
  · rw [receiver_eq_UnmarshalJSON, hres]
    cases kindOfToken (strings.ToLower caseLower text) with
    | none => rfl
    | some k => rfl

theorem UnmarshalJSON_quoted_examples (caseLower : Char → Char) :
    SectionType.UnmarshalJSON caseLower "\"Item\"".toList = Result.ok SectionType.ITEM ∧
    SectionType.UnmarshalJSON caseLower "\"SECTION\"".toList
      = Result.ok SectionType.COLLECTION ∧
    SectionType.UnmarshalJSON caseLower "\"wcmsTopic\"".toList
      = Result.ok SectionType.WCMS_TOPIC ∧
    SectionType.UnmarshalJSON caseLower "\"recommendations\"".toList
      = Result.ok SectionType.RECCOMENDATIONS_TOPIC ∧
    SectionType.UnmarshalJSON caseLower "\"topicContent\"".toList
      = Result.ok SectionType.TOPIC_CONTENT ∧
    SectionType.UnmarshalJSON caseLower "\"bogus\"".toList
      = Result.error Error.parseSectionType ∧
    SectionType.UnmarshalJSON.receiver caseLower SectionType.ITEM "\"bogus\"".toList
      = some (SectionType.ITEM, some Error.parseSectionType) :=
  ⟨rfl, rfl, rfl, rfl, rfl, rfl, rfl⟩

/-! ## Decoding whole documents: kinds, failures and the empty root -/

mutual
theorem nodes_forall2 (caseLower : Char → Char) :
    ∀ (b : Fragment) (t : Section), Section.UnmarshalJSON caseLower b = Result.ok t →
      List.Forall₂ (fun f n => Section.UnmarshalJSON caseLower f = Result.ok n)
        b.nodes t.nodes
  | Fragment.invalid raw, t, h => by simp [Section.UnmarshalJSON] at h
  | Fragment.fields raw name sections type resourceId, t, h => by
    obtain ⟨kind, children, hc, _, ht⟩ :=
      UnmarshalJSON_fields caseLower raw name sections type resourceId t h
    have hch : t.Children = children := by rw [ht]
    rw [Section_nodes_eq, hch]
    simp only [Fragment.nodes]
    exact List.Forall₂.cons h (nodes_list_forall2 caseLower sections children hc)
theorem nodes_list_forall2 (caseLower : Char → Char) :
    ∀ (bs : List Fragment) (ts : List Section),
      Section.UnmarshalJSON.elements caseLower bs = Result.ok ts →
      List.Forall₂ (fun f n => Section.UnmarshalJSON caseLower f = Result.ok n)
        (Fragment.nodes.list bs) (Section.nodes.list ts)
  | [], ts, h => by
    simp only [Section.UnmarshalJSON.elements] at h
    injection h with h
    subst h
    simp only [Fragment.nodes.list, Section.nodes.list]
    exact List.Forall₂.nil
  | b :: rest, ts, h => by
    obtain ⟨child, children, hc, hcs, hts⟩ := elements_cons caseLower b rest ts h
    subst hts
    simp only [Fragment.nodes.list, Section.nodes.list]
    exact List.rel_append (nodes_forall2 caseLower b child hc)
      (nodes_list_forall2 caseLower rest children hcs)
end

theorem UnmarshalJSON_untyped (caseLower : Char → Char) (f : Fragment) (n : Section)
    (h : Section.UnmarshalJSON caseLower f = Result.ok n) (ht : f.typeToken = none) :
    n.SectionType = SectionType.COLLECTION := by
  cases f with
  | invalid raw => simp [Section.UnmarshalJSON] at h
  | fields raw name sections type resourceId =>
    simp only [Fragment.typeToken] at ht
    subst ht
    obtain ⟨kind, children, _, hk, hn⟩ :=
      UnmarshalJSON_fields caseLower raw name sections none resourceId n h
    simp only at hk
    injection hk with hk
    rw [hn, ← hk]

/-- C13: the fragments of a successfully decoded document and the nodes of the
tree, both listed parent first in document order, correspond one to one, and
every node whose object has no `type` key has the kind `COLLECTION`, at any
depth and whatever the kind of its parent. -/
theorem untyped_nodes_default_to_collection (caseLower : Char → Char) (b : Fragment)
    (t : Section) (h : Section.UnmarshalJSON caseLower b = Result.ok t) :
    List.Forall₂
      (fun f n => Section.UnmarshalJSON caseLower f = Result.ok n ∧
        (f.typeToken = none → n.SectionType = SectionType.COLLECTION))
      b.nodes t.nodes := by
  refine List.Forall₂.imp ?_ (nodes_forall2 caseLower b t h)
  intro f n hfn
  exact ⟨hfn, UnmarshalJSON_untyped caseLower f n hfn⟩

/-- Witness of C13, the `Nested sections` test: the root with `type:"item"`
decodes to kind `ITEM` with two children of kind `COLLECTION`. -/
theorem untyped_nodes_default_to_collection_witness :
    (nestedRoot.SectionType = SectionType.ITEM ∧
      nestedRoot.Children.map Section.SectionType
        = [SectionType.COLLECTION, SectionType.COLLECTION]) ∧
    List.Forall₂
      (fun f n => Section.UnmarshalJSON (fun c => c) f = Result.ok n ∧
        (f.typeToken = none → n.SectionType = SectionType.COLLECTION))
      nestedDoc.nodes nestedRoot.nodes :=
  ⟨⟨rfl, rfl⟩, untyped_nodes_default_to_collection (fun c => c) nestedDoc nestedRoot rfl⟩

theorem Forall₂_exists_right {α β : Type} {R : α → β → Prop} {l₁ : List α} {l₂ : List β}
    (h : List.Forall₂ R l₁ l₂) : ∀ a ∈ l₁, ∃ b ∈ l₂, R a b := by
  induction h with
  | nil => intro a ha; simp at ha
  | cons hab _ ih =>
    intro a ha
    rcases List.mem_cons.mp ha with ha | ha
    · subst ha
      exact ⟨_, by simp, hab⟩
    · obtain ⟨b, hb, hr⟩ := ih a ha
      exact ⟨b, by simp [hb], hr⟩

theorem UnmarshalJSON_token_no_panic (caseLower : Char → Char) (b : List Char)
    (h : 2 ≤ b.length) :
    (∃ kind, SectionType.UnmarshalJSON caseLower b = Result.ok kind) ∨
      SectionType.UnmarshalJSON caseLower b = Result.error Error.parseSectionType := by
  rw [UnmarshalJSON_eq_kindOfToken caseLower b (by omega)]
  cases kindOfToken (strings.ToLower caseLower ((b.drop 1).take (b.length - 1 - 1))) with
  | none => exact Or.inr rfl
  | some k => exact Or.inl ⟨k, rfl⟩

theorem UnmarshalJSON_bogus_fragment (caseLower : Char → Char) (f : Fragment)
    (text : List Char) (htok : f.typeToken = some ('"' :: (text ++ ['"'])))
    (hbogus : kindOfToken (strings.ToLower caseLower text) = none) :
    Section.UnmarshalJSON caseLower f = Result.error Error.parseSectionType := by
  cases f with
  | invalid raw => simp [Fragment.typeToken] at htok
  | fields raw name sections type resourceId =>
    simp only [Fragment.typeToken] at htok
    subst htok
    obtain ⟨hlen, htext⟩ := quoted_token_text text
    have hres := UnmarshalJSON_eq_kindOfToken caseLower _ hlen
    rw [htext, hbogus] at hres
    simp only [Section.UnmarshalJSON, hres]

theorem bogus_type_never_ok (caseLower : Char → Char) (b f : Fragment) (text : List Char)
    (hf : f ∈ b.nodes) (htok : f.typeToken = some ('"' :: (text ++ ['"'])))
    (hbogus : kindOfToken (strings.ToLower caseLower text) = none) :
    (∀ t, Section.UnmarshalJSON caseLower b ≠ Result.ok t) ∧
    (∀ cr, NewConfigGetter caseLower b ≠ some (cr, none)) := by
  have hnot : ∀ t, Section.UnmarshalJSON caseLower b ≠ Result.ok t := by
    intro t ht
    obtain ⟨n, _, hn⟩ := Forall₂_exists_right (nodes_forall2 caseLower b t ht) f hf
    rw [UnmarshalJSON_bogus_fragment caseLower f text htok hbogus] at hn
    cases hn
  refine ⟨hnot, ?_⟩
  intro cr hcr
  obtain ⟨s, _, _, h | ⟨e, he, _⟩⟩ := NewConfigGetter_built caseLower b cr none hcr
  · exact hnot s h.2
  · cases he

mutual
theorem UnmarshalJSON_no_panic (caseLower : Char → Char) :
    ∀ (b : Fragment), (∀ f ∈ b.nodes, ∀ tok, f.typeToken = some tok → 2 ≤ tok.length) →
      Section.UnmarshalJSON caseLower b ≠ Result.panic
  | Fragment.invalid raw, _ => by simp [Section.UnmarshalJSON]
  | Fragment.fields raw name sections type resourceId, h => by
    have hlist := UnmarshalJSON_elements_no_panic caseLower sections
      (fun f hf tok htok => h f (by simp [Fragment.nodes, hf]) tok htok)
    have htype : (match type with
        | none => Result.ok SectionType.COLLECTION
        | some token => SectionType.UnmarshalJSON caseLower token) ≠ Result.panic := by
      cases type with
      | none => simp
      | some token =>
        have h2 := h (Fragment.fields raw name sections (some token) resourceId)
          (by simp [Fragment.nodes]) token rfl
        rcases UnmarshalJSON_token_no_panic caseLower token h2 with ⟨k, hk⟩ | hk
        · simp only [hk]; simp
        · simp only [hk]; simp
    simp only [Section.UnmarshalJSON]
    split
    · rename_i hp; exact absurd hp htype
    · simp
    · split
      · rename_i hp; exact absurd hp hlist
      · simp
      · simp
theorem UnmarshalJSON_elements_no_panic (caseLower : Char → Char) :
    ∀ (bs : List Fragment),
      (∀ f ∈ Fragment.nodes.list bs, ∀ tok, f.typeToken = some tok → 2 ≤ tok.length) →
      Section.UnmarshalJSON.elements caseLower bs ≠ Result.panic
  | [], _ => by simp [Section.UnmarshalJSON.elements]
  | b :: rest, h => by
    have hb := UnmarshalJSON_no_panic caseLower b
      (fun f hf tok htok => h f (by simp [Fragment.nodes.list, hf]) tok htok)
    have hrest := UnmarshalJSON_elements_no_panic caseLower rest
      (fun f hf tok htok => h f (by simp [Fragment.nodes.list, hf]) tok htok)
    simp only [Section.UnmarshalJSON.elements]
    split
    · rename_i hp; exact absurd hp hb
    · simp
    · split
      · rename_i hp; exact absurd hp hrest
      · simp
      · simp
end

theorem NewConfigGetter_of_error (caseLower : Char → Char) (configSource : Fragment)
    (e : Error) (h : Section.UnmarshalJSON caseLower configSource = Result.error e) :
    NewConfigGetter caseLower configSource = some (⟨Section.zero⟩, some e) := by
  unfold NewConfigGetter ConfigGetter.readConfig
  rw [h]
  rfl

theorem bogus_type_error (caseLower : Char → Char) (b f : Fragment) (text : List Char)
    (hf : f ∈ b.nodes) (htok : f.typeToken = some ('"' :: (text ++ ['"'])))
    (hbogus : kindOfToken (strings.ToLower caseLower text) = none)
    (hlong : ∀ g ∈ b.nodes, ∀ tok, g.typeToken = some tok → 2 ≤ tok.length) :
    ∃ e, Section.UnmarshalJSON caseLower b = Result.error e ∧
      NewConfigGetter caseLower b = some (⟨Section.zero⟩, some e) := by
  have hnok := (bogus_type_never_ok caseLower b f text hf htok hbogus).1
  have hnp := UnmarshalJSON_no_panic caseLower b hlong
  cases hd : Section.UnmarshalJSON caseLower b with
  | ok t => exact absurd hd (hnok t)
  | panic => exact absurd hd hnp
  | error e => exact ⟨e, rfl, NewConfigGetter_of_error caseLower b e hd⟩

/-- C14 (the code departs from it): in `{"type":5,"section":[{"type":"bogus"}]}`
a child carries the unrecognized string token `"bogus"`, yet neither
`Section.UnmarshalJSON` nor `NewConfigGetter` returns an error: the one-digit
`type` value of the root makes `SectionType.UnmarshalJSON` panic first.  When
the token sits two levels below the root of a document without such a value,
the error of the innermost node is what both functions return. -/
theorem bogus_type_behind_digit_type_panics :
    (Fragment.fields "\x7b\"type\":\"bogus\"\x7d".toList none [] (some "\"bogus\"".toList) none)
      ∈ digitThenBogusDoc.nodes ∧
    Section.UnmarshalJSON (fun c => c) digitThenBogusDoc = Result.panic ∧
    NewConfigGetter (fun c => c) digitThenBogusDoc = none ∧
    Section.UnmarshalJSON (fun c => c) deepBogusDoc = Result.error Error.parseSectionType ∧
    NewConfigGetter (fun c => c) deepBogusDoc
      = some (⟨Section.zero⟩, some Error.parseSectionType) := by
  refine ⟨?_, rfl, rfl, rfl, rfl⟩
  exact List.Mem.tail _ (List.Mem.head _)

/-- C19 (the code departs from it): the one-byte token `5`, which
`encoding/json` hands over for `{"type":5}`, is neither classified nor
reported as unrecognized: the slice expression `b[1 : len(b)-1]` is out of
range and the call panics, and with it `Section.UnmarshalJSON` and
`NewConfigGetter`.  The longer unquoted tokens `true` and `null` do give the
unrecognized-type error. -/
theorem UnmarshalJSON_one_byte_token_panics :
    SectionType.UnmarshalJSON (fun c => c) "5".toList = Result.panic ∧
    SectionType.UnmarshalJSON.receiver (fun c => c) SectionType.COLLECTION "5".toList
      = none ∧
    Section.UnmarshalJSON (fun c => c) digitTypeDoc = Result.panic ∧
    NewConfigGetter (fun c => c) digitTypeDoc = none ∧
    SectionType.UnmarshalJSON (fun c => c) "true".toList
      = Result.error Error.parseSectionType ∧
    SectionType.UnmarshalJSON (fun c => c) "null".toList
      = Result.error Error.parseSectionType :=
  ⟨rfl, rfl, rfl, rfl, rfl, rfl⟩

/-! ## Malformed requests and lookups after a failed build -/

theorem Split_ne_nil (s : GoString) (sep : Char) : strings.Split s sep ≠ [] := by
  intro h
  have := Split_length s sep
  rw [h] at this
  simp at this

theorem Get_no_slash (cr : ConfigGetter) (requestURI : GoString) (h : '/' ∉ requestURI) :
    cr.Get requestURI = Result.error (Error.notEnoughSegments requestURI) := by
  simp [ConfigGetter.Get, Split_no_sep requestURI '/' h]

theorem Get_slash_outcome (cr : ConfigGetter) (requestURI : GoString)
    (h : '/' ∈ requestURI) :
    cr.Get requestURI = Result.ok
        (longestMatch (strings.Split requestURI '/').tail cr.configSection) ∨
      cr.Get requestURI = Result.error (Error.resourceMismatch
        (longestMatch (strings.Split requestURI '/').tail cr.configSection).ResourceLocator
        ((strings.Split requestURI '/').tail.getLastD [])) := by
  rw [Get_of_segments cr requestURI (Split_tail_ne_nil requestURI h)]
  by_cases hm : (longestMatch (strings.Split requestURI '/').tail
      cr.configSection).ResourceLocator ≠ (strings.Split requestURI '/').tail.getLastD []
  · right; exact if_pos hm
  · left; exact if_neg hm

/-- C16: `strings.Split` always yields at least one piece, so dropping the
first piece never indexes out of range and `Get` never panics; `Get` returns
the malformed-path error exactly when the request contains no `/` (the empty
string included); and whenever a `/` is present, `Traverse` is run on at
least one segment and `Get` answers with its node or with the mismatch
error. -/
theorem Get_malformed_iff_no_slash (cr : ConfigGetter) (requestURI : GoString) :
    strings.Split requestURI '/' ≠ [] ∧
    cr.Get requestURI ≠ Result.panic ∧
    (cr.Get requestURI = Result.error (Error.notEnoughSegments requestURI) ↔
      '/' ∉ requestURI) ∧
    cr.Get [] = Result.error (Error.notEnoughSegments []) ∧
    ('/' ∈ requestURI →
      (strings.Split requestURI '/').tail ≠ [] ∧
      ∃ found : Section,
        cr.configSection.Traverse (strings.Split requestURI '/').tail = some found ∧
        (cr.Get requestURI = Result.ok found ∨
          cr.Get requestURI = Result.error (Error.resourceMismatch found.ResourceLocator
            ((strings.Split requestURI '/').tail.getLastD [])))) := by
  refine ⟨Split_ne_nil requestURI '/', ?_, ?_, Get_no_slash cr [] (by simp), ?_⟩
  · by_cases h : '/' ∈ requestURI
    · rcases Get_slash_outcome cr requestURI h with hg | hg <;> rw [hg] <;> simp
    · rw [Get_no_slash cr requestURI h]; simp
  · constructor
    · intro hg h
      rcases Get_slash_outcome cr requestURI h with hg1 | hg1 <;> rw [hg1] at hg <;> cases hg
    · exact Get_no_slash cr requestURI
  · intro h
    have hne := Split_tail_ne_nil requestURI h
    exact ⟨hne, _, Traverse_eq_longestMatch _ cr.configSection hne,
      Get_slash_outcome cr requestURI h⟩

theorem longestMatch_no_children (segs : List GoString) (s : Section)
    (h : s.Children = []) : longestMatch segs s = s := by
  cases segs with
  | nil => rfl
  | cons seg rest => simp [longestMatch, firstMatch, h]

theorem getLastD_tail (l : List GoString) (h : l.tail ≠ []) :
    l.tail.getLastD [] = l.getLastD [] := by
  cases l with
  | nil => simp at h
  | cons a t =>
    cases t with
    | nil => simp at h
    | cons b t => simp [List.getLastD]

/-- C18 (the code departs from it): after the build of `{"type":"bogus"}` has
failed, `Get("/")` on the returned index returns the empty root and no error.
The only segment, the empty string, is matched by no child (no node is
located at that path), `Traverse` stops at the root, and the check of `Get`
compares only the last segment with the identifier of that node, which is
empty as well. -/
theorem Get_slash_on_failed_build_returns_root :
    NewConfigGetter (fun c => c) bogusDoc
      = some (⟨Section.zero⟩, some Error.parseSectionType) ∧
    strings.Split "/".toList '/' = [[], []] ∧
    nodeAt [[]] Section.zero = none ∧
    ConfigGetter.Get ⟨Section.zero⟩ "/".toList = Result.ok Section.zero :=
  ⟨rfl, rfl, rfl, rfl⟩

/-- On the index returned by a failed build, `Get` returns an error and no
node for every request path that has no `/` or whose text after the last `/`
is non-empty. -/
theorem Get_on_failed_build_errors (caseLower : Char → Char) (configSource : Fragment)
    (cr : ConfigGetter) (e : Error) (requestURI : GoString)
    (hbuilt : NewConfigGetter caseLower configSource = some (cr, some e))
    (hlast : '/' ∉ requestURI ∨ (strings.Split requestURI '/').getLastD [] ≠ []) :
    ∃ err : Error, cr.Get requestURI = Result.error err := by
  by_cases hs : '/' ∈ requestURI
  · have hne := Split_tail_ne_nil requestURI hs
    have hl : (strings.Split requestURI '/').getLastD [] ≠ [] := by
      rcases hlast with h | h
      · exact absurd hs h
      · exact h
    obtain ⟨s, _, hcr, h | ⟨e1, _, _, hz⟩⟩ :=
      NewConfigGetter_built caseLower configSource cr (some e) hbuilt
    · cases h.1
    · have hroot : cr.configSection = Section.zero := by rw [hcr, hz]; rfl
      rw [Get_of_segments cr requestURI hne, hroot,
        longestMatch_no_children _ Section.zero rfl, getLastD_tail _ hne]
      have hm : Section.zero.ResourceLocator ≠ (strings.Split requestURI '/').getLastD [] :=
        fun h => hl h.symm
      exact ⟨_, if_pos hm⟩
  · exact ⟨_, Get_no_slash cr requestURI hs⟩

/-! ## `updateResourceRoutes`: what it assigns and what it leaves alone -/

mutual
theorem setRoutes_clearRoutes :
    ∀ (s : Section) (p : GoString), (Section.setRoutes p s).clearRoutes = s.clearRoutes
  | ⟨name, children, src, kind, id, rp⟩, p => by
    simp only [Section.setRoutes, Section.clearRoutes]
    rw [setRoutes_range_clearRoutes children p]
theorem setRoutes_range_clearRoutes :
    ∀ (children : List Section) (p : GoString),
      Section.clearRoutes.list (Section.setRoutes.range p children)
        = Section.clearRoutes.list children
  | [], p => by simp [Section.setRoutes.range, Section.clearRoutes.list]
  | child :: more, p => by
    simp only [Section.setRoutes.range, Section.clearRoutes.list]
    rw [setRoutes_clearRoutes child _, setRoutes_range_clearRoutes more p]
end

mutual
theorem Routed_children_paths :
    ∀ (u : Section), u.Routed →
      ∀ parent ∈ u.nodes, ∀ child ∈ parent.Children,
        child.requestPath = path.Join [parent.requestPath, child.ResourceID]
  | ⟨name, children, src, kind, id, rp⟩, h => by
    simp only [Section.Routed] at h
    obtain ⟨h1, h2⟩ := Routed_list_children_paths children rp h
    intro parent hp child hc
    simp only [Section.nodes] at hp
    rcases List.mem_cons.mp hp with hp | hp
    · subst hp
      exact h1 child hc
    · exact h2 parent hp child hc
theorem Routed_list_children_paths :
    ∀ (cs : List Section) (p : GoString), Section.Routed.list p cs →
      (∀ c ∈ cs, c.requestPath = path.Join [p, c.ResourceID]) ∧
      ∀ parent ∈ Section.nodes.list cs, ∀ child ∈ parent.Children,
        child.requestPath = path.Join [parent.requestPath, child.ResourceID]
  | [], p, _ => by simp [Section.nodes.list]
  | c :: more, p, h => by
    simp only [Section.Routed.list] at h
    obtain ⟨hc, hcr, hmore⟩ := h
    obtain ⟨h1, h2⟩ := Routed_list_children_paths more p hmore
    have h3 := Routed_children_paths c hcr
    constructor
    · intro x hx
      rcases List.mem_cons.mp hx with hx | hx
      · rw [hx]; exact hc
      · exact h1 x hx
    · intro parent hp child hch
      simp only [Section.nodes.list, List.mem_append] at hp
      rcases hp with hp | hp
      · exact h3 parent hp child hch
      · exact h2 parent hp child hch
end

mutual
theorem parent_of_descendant :
    ∀ (u : Section), ∀ N ∈ Section.nodes.list u.Children,
      ∃ parent ∈ u.nodes, N ∈ parent.Children
  | ⟨name, children, src, kind, id, rp⟩, N, hN => by
    simp only at hN
    rcases parent_of_descendant_list children N hN with h | ⟨parent, hp, hc⟩
    · exact ⟨⟨name, children, src, kind, id, rp⟩, by simp [Section.nodes], h⟩
    · exact ⟨parent, by simp [Section.nodes, hp], hc⟩
theorem parent_of_descendant_list :
    ∀ (cs : List Section), ∀ N ∈ Section.nodes.list cs,
      N ∈ cs ∨ ∃ parent ∈ Section.nodes.list cs, N ∈ parent.Children
  | [], N, hN => by simp [Section.nodes.list] at hN
  | c :: more, N, hN => by
    simp only [Section.nodes.list, List.mem_append] at hN
    rcases hN with hN | hN
    · rw [Section_nodes_eq] at hN
      rcases List.mem_cons.mp hN with hN | hN
      · left; simp [hN]
      · obtain ⟨parent, hp, hc⟩ := parent_of_descendant c N hN
        right
        exact ⟨parent, by simp [Section.nodes.list, hp], hc⟩
    · rcases parent_of_descendant_list more N hN with h | ⟨parent, hp, hc⟩
      · left; simp [h]
      · right
        exact ⟨parent, by simp [Section.nodes.list, hp], hc⟩
end

theorem nodes_list_subset_of_mem (cs : List Section) (c : Section) (hc : c ∈ cs) :
    ∀ n ∈ c.nodes, n ∈ Section.nodes.list cs := by
  induction cs with
  | nil => simp at hc
  | cons x xs ih =>
    intro n hn
    simp only [Section.nodes.list, List.mem_append]
    rcases List.mem_cons.mp hc with h | h
    · left; rw [← h]; exact hn
    · right; exact ih h n hn

theorem nodes_of_child (v c : Section) (hc : c ∈ v.Children) :
    ∀ n ∈ c.nodes, n ∈ v.nodes := by
  intro n hn
  rw [Section_nodes_eq v]
  exact List.mem_cons_of_mem _ (nodes_list_subset_of_mem v.Children c hc n hn)

theorem reaches_path (chain : List GoString) :
    ∀ (v : Section) (chain0 : List GoString) (N : Section),
      (∀ parent ∈ v.nodes, ∀ child ∈ parent.Children,
        child.requestPath = path.Join [parent.requestPath, child.ResourceID]) →
      v.requestPath = joinSegs chain0 → (∀ i ∈ chain0, plainId i) →
      (∀ i ∈ chain, plainId i) → reaches chain v N →
      N.requestPath = joinSegs (chain0 ++ chain) := by
  induction chain with
  | nil =>
    intro v chain0 N _ hv _ _ hr
    simp only [reaches] at hr
    rw [hr, hv, List.append_nil]
  | cons i rest ih =>
    intro v chain0 N hinv hv h0 hch hr
    simp only [reaches] at hr
    obtain ⟨c, hc, hci, hrest⟩ := hr
    have hi : plainId i := hch i (by simp)
    have hcp : c.requestPath = joinSegs (chain0 ++ [i]) := by
      rw [hinv v (by rw [Section_nodes_eq]; simp) c hc, hv, hci,
        Join_joinSegs chain0 i h0 hi]
    have h0i : ∀ x ∈ chain0 ++ [i], plainId x := by
      intro x hx
      rcases List.mem_append.mp hx with h | h
      · exact h0 x h
      · rw [List.mem_singleton.mp h]; exact hi
    have := ih c (chain0 ++ [i]) N
      (fun parent hp child hch1 => hinv parent (nodes_of_child v c hc parent hp) child hch1)
      hcp h0i (fun x hx => hch x (by simp [hx])) hrest
    simpa using this

/-- On a tree of real nodes: after `updateResourceRoutes` on a root whose full
path is empty, the root's full path is still empty; every child of every node, and so every
node below the root, has the full path of its parent joined with its own
identifier; a node reached from the root through children with the plain
identifiers `i1, ..., ik` has the full path `i1/i2/.../ik`, which splits at
`/` into exactly those identifiers (no leading, trailing or doubled
separator); and apart from the full paths the tree is the one it was: names,
identifiers, kinds, raw payloads and the order of the children are
unchanged. -/
theorem updateResourceRoutes_assigns_full_paths (s : Section) (hrp : s.requestPath = []) :
    s.updateResourceRoutes.requestPath = [] ∧
    (∀ parent ∈ s.updateResourceRoutes.nodes, ∀ child ∈ parent.Children,
      child.requestPath = path.Join [parent.requestPath, child.ResourceID]) ∧
    (∀ N ∈ Section.nodes.list s.updateResourceRoutes.Children,
      ∃ parent ∈ s.updateResourceRoutes.nodes, N ∈ parent.Children ∧
        N.requestPath = path.Join [parent.requestPath, N.ResourceID]) ∧
    (∀ (chain : List GoString) (N : Section), (∀ i ∈ chain, plainId i) →
      reaches chain s.updateResourceRoutes N →
      N.requestPath = joinSegs chain ∧
        (chain ≠ [] → strings.Split N.requestPath '/' = chain)) ∧
    s.updateResourceRoutes.clearRoutes = s.clearRoutes := by
  have hroot : s.updateResourceRoutes.requestPath = [] := by
    unfold Section.updateResourceRoutes
    rw [(setRoutes_fields s.requestPath s).1, hrp]
  have hinv := Routed_children_paths s.updateResourceRoutes
    (setRoutes_Routed s s.requestPath)
  refine ⟨hroot, hinv, ?_, ?_, setRoutes_clearRoutes s s.requestPath⟩
  · intro N hN
    obtain ⟨parent, hp, hc⟩ := parent_of_descendant s.updateResourceRoutes N hN
    exact ⟨parent, hp, hc, hinv parent hp N hc⟩
  · intro chain N hch hr
    have hpath := reaches_path chain s.updateResourceRoutes [] N hinv
      (by rw [hroot]; rfl) (by simp) hch hr
    rw [List.nil_append] at hpath
    refine ⟨hpath, ?_⟩
    intro hne
    rw [hpath]
    exact Split_joinSegs chain hne (fun i hi => (hch i hi).2.1)

theorem setRoutes_range_ids (p : GoString) (cs : List Section) :
    (Section.setRoutes.range p cs).map Section.ResourceID = cs.map Section.ResourceID := by
  induction cs with
  | nil => simp [Section.setRoutes.range]
  | cons c more ih =>
    simp only [Section.setRoutes.range, List.map_cons, ih]
    rw [(setRoutes_fields _ c).2.1]

mutual
theorem setRoutes_nodes_ids :
    ∀ (s : Section) (p : GoString),
      List.Forall₂
        (fun n m => m.ResourceID = n.ResourceID ∧
          m.Children.map Section.ResourceID = n.Children.map Section.ResourceID)
        s.nodes (Section.setRoutes p s).nodes
  | ⟨name, children, src, kind, id, rp⟩, p => by
    simp only [Section.setRoutes, Section.nodes]
    exact List.Forall₂.cons ⟨rfl, setRoutes_range_ids p children⟩
      (setRoutes_range_nodes_ids children p)
theorem setRoutes_range_nodes_ids :
    ∀ (cs : List Section) (p : GoString),
      List.Forall₂
        (fun n m => m.ResourceID = n.ResourceID ∧
          m.Children.map Section.ResourceID = n.Children.map Section.ResourceID)
        (Section.nodes.list cs) (Section.nodes.list (Section.setRoutes.range p cs))
  | [], p => by
    simp only [Section.setRoutes.range, Section.nodes.list]
    exact List.Forall₂.nil
  | c :: more, p => by
    simp only [Section.setRoutes.range, Section.nodes.list]
    exact List.rel_append (setRoutes_nodes_ids c _) (setRoutes_range_nodes_ids more p)
end

theorem Forall₂_exists_left {α β : Type} {R : α → β → Prop} {l₁ : List α} {l₂ : List β}
    (h : List.Forall₂ R l₁ l₂) : ∀ b ∈ l₂, ∃ a ∈ l₁, R a b := by
  induction h with
  | nil => intro b hb; simp at hb
  | cons hab _ ih =>
    intro b hb
    rcases List.mem_cons.mp hb with hb | hb
    · subst hb
      exact ⟨_, by simp, hab⟩
    · obtain ⟨a, ha, hr⟩ := ih b hb
      exact ⟨a, by simp [ha], hr⟩

/-- C20: for a tree whose root has an empty full path, in which every
identifier below the root is non-empty, free of `/` and neither `.` nor `..`,
and in which the children of each node have pairwise distinct identifiers:
after `updateResourceRoutes`, `Get("/" + P)` succeeds for the full path `P` of
every node `N` below the root and returns `N`. -/
theorem Get_slash_requestPath_returns_node (s : Section) (hrp : s.requestPath = [])
    (hplain : ∀ n ∈ Section.nodes.list s.Children, plainId n.ResourceID)
    (hdistinct : ∀ n ∈ s.nodes, (n.Children.map Section.ResourceID).Nodup)
    (N : Section) (hN : N ∈ Section.nodes.list s.updateResourceRoutes.Children) :
    ConfigGetter.Get ⟨s.updateResourceRoutes⟩ ('/' :: N.requestPath) = Result.ok N := by
  have hu : s.updateResourceRoutes = Section.setRoutes [] s := by
    unfold Section.updateResourceRoutes
    rw [hrp]
  have hall := setRoutes_nodes_ids s []
  have htail : List.Forall₂
      (fun n m => m.ResourceID = n.ResourceID ∧
        m.Children.map Section.ResourceID = n.Children.map Section.ResourceID)
      (Section.nodes.list s.Children)
      (Section.nodes.list (Section.setRoutes [] s).Children) := by
    rw [(setRoutes_fields [] s).2.2]
    exact setRoutes_range_nodes_ids s.Children []
  rw [hu] at hN ⊢
  apply Get_slash_requestPath_of_routed (Section.setRoutes [] s)
    (setRoutes_fields [] s).1 (setRoutes_Routed s []) ?_ ?_ N hN
  · intro m hm
    obtain ⟨n, hn, hid, _⟩ := Forall₂_exists_left htail m hm
    rw [hid]
    exact hplain n hn
  · intro m hm
    obtain ⟨n, hn, _, hch⟩ := Forall₂_exists_left hall m hm
    rw [hch]
    exact hdistinct n hn

/-- Witness of C20: the node `section1` of the updated test tree is what
`Get("/section1")` returns. -/
theorem Get_slash_requestPath_returns_node_witness :
    ConfigGetter.Get ⟨nestedRoot.updateResourceRoutes⟩
        ('/' :: ({ section1 with requestPath := "section1".toList } : Section).requestPath)
      = Result.ok { section1 with requestPath := "section1".toList } :=
  Get_slash_requestPath_returns_node nestedRoot rfl (by decide) (by decide)
    { section1 with requestPath := "section1".toList } (List.Mem.head _)

/-! ## Further witnesses -/

/-- Witness of C12 on the token `"Item"` with the receiver holding
`COLLECTION`. -/
theorem UnmarshalJSON_quoted_token_witness :
    SectionType.UnmarshalJSON (fun c => c) "\"Item\"".toList = Result.ok SectionType.ITEM ∧
    (SectionType.UnmarshalJSON (fun c => c) ('"' :: ("Item".toList ++ ['"'])) =
      (match kindOfToken (strings.ToLower (fun c => c) "Item".toList) with
        | some kind => Result.ok kind
        | none => Result.error Error.parseSectionType) ∧
    ((∃ kind, SectionType.UnmarshalJSON (fun c => c) ('"' :: ("Item".toList ++ ['"']))
        = Result.ok kind) ↔
      strings.ToLower (fun c => c) "Item".toList ∈ ["section".toList, "item".toList,
        "wcmstopic".toList, "recommendations".toList, "topiccontent".toList]) ∧
    SectionType.UnmarshalJSON.receiver (fun c => c) SectionType.COLLECTION
        ('"' :: ("Item".toList ++ ['"'])) =
      (match kindOfToken (strings.ToLower (fun c => c) "Item".toList) with
        | some kind => some (kind, none)
        | none => some (SectionType.COLLECTION, some Error.parseSectionType)) ∧
    ((∀ c ∈ "Item".toList, c.toNat ≤ 0x7F) →
      strings.ToLower (fun c => c) "Item".toList
        = strings.ToLower (fun c => c) "Item".toList)) :=
  ⟨rfl, UnmarshalJSON_quoted_token (fun c => c) "Item".toList SectionType.COLLECTION⟩

/-- Witness of C16 on the index of the test document and the request
`/section1`. -/
theorem Get_malformed_iff_no_slash_witness :
    nestedIndex.Get "section1".toList
      = Result.error (Error.notEnoughSegments "section1".toList) ∧
    (strings.Split "/section1".toList '/' ≠ [] ∧
    nestedIndex.Get "/section1".toList ≠ Result.panic ∧
    (nestedIndex.Get "/section1".toList
        = Result.error (Error.notEnoughSegments "/section1".toList) ↔
      '/' ∉ "/section1".toList) ∧
    nestedIndex.Get [] = Result.error (Error.notEnoughSegments []) ∧
    ('/' ∈ "/section1".toList →
      (strings.Split "/section1".toList '/').tail ≠ [] ∧
      ∃ found : Section,
        nestedIndex.configSection.Traverse (strings.Split "/section1".toList '/').tail
          = some found ∧
        (nestedIndex.Get "/section1".toList = Result.ok found ∨
          nestedIndex.Get "/section1".toList
            = Result.error (Error.resourceMismatch found.ResourceLocator
              ((strings.Split "/section1".toList '/').tail.getLastD []))))) :=
  ⟨rfl, Get_malformed_iff_no_slash nestedIndex "/section1".toList⟩

/-! ## Pointer trees: agreement with the trees of real nodes -/

mutual
theorem Traverse_ofSection :
    ∀ (s : Section) (segs : List GoString),
      (SectionPtr.ofSection s).Traverse segs = (s.Traverse segs).map SectionPtr.ofSection
  | ⟨name, children, src, kind, id, rp⟩, [] => by
    simp [SectionPtr.ofSection, SectionPtr.Traverse, Section.Traverse]
  | ⟨name, children, src, kind, id, rp⟩, seg :: rest => by
    have hr := Traverse_range_ofSection children ⟨name, children, src, kind, id, rp⟩ seg rest
    cases children with
    | nil =>
      simp [SectionPtr.ofSection, SectionPtr.ofSection.list, SectionPtr.Traverse,
        Section.Traverse]
    | cons c cs =>
      simp only [SectionPtr.ofSection] at hr
      simp only [SectionPtr.ofSection, SectionPtr.ofSection.list, SectionPtr.Traverse,
        Section.Traverse, List.length_cons, gt_iff_lt, Nat.zero_lt_succ, if_true]
      simp only [SectionPtr.ofSection.list] at hr
      exact hr
theorem Traverse_range_ofSection :
    ∀ (children : List Section) (s : Section) (seg : GoString) (rest : List GoString),
      SectionPtr.Traverse.range (SectionPtr.ofSection s) (SectionPtr.ofSection.list children)
          seg rest
        = (Section.Traverse.range s children seg rest).map SectionPtr.ofSection
  | [], s, seg, rest => by
    simp [SectionPtr.ofSection.list, SectionPtr.Traverse.range, Section.Traverse.range]
  | ⟨name, cs, src, kind, id, rp⟩ :: more, s, seg, rest => by
    have h1 := Traverse_ofSection ⟨name, cs, src, kind, id, rp⟩ rest
    have h2 := Traverse_range_ofSection more s seg rest
    simp only [SectionPtr.ofSection] at h1
    simp only [SectionPtr.ofSection.list, SectionPtr.ofSection, SectionPtr.Traverse.range,
      Section.Traverse.range, Section.ResourceLocator]
    by_cases hm : seg = id
    · simp only [hm, if_true]
      by_cases hl : rest.length > 0
      · simp only [hl, if_true]
        exact h1
      · simp only [hl, if_false, Option.map_some', SectionPtr.ofSection]
    · simp only [hm, if_false]
      exact h2
end

mutual
theorem setRoutes_ofSection :
    ∀ (s : Section) (p : GoString),
      SectionPtr.setRoutes p (SectionPtr.ofSection s)
        = some (SectionPtr.ofSection (Section.setRoutes p s))
  | ⟨name, children, src, kind, id, rp⟩, p => by
    simp only [SectionPtr.ofSection, SectionPtr.setRoutes, Section.setRoutes,
      setRoutes_range_ofSection children p]
theorem setRoutes_range_ofSection :
    ∀ (children : List Section) (p : GoString),
      SectionPtr.setRoutes.range p (SectionPtr.ofSection.list children)
        = some (SectionPtr.ofSection.list (Section.setRoutes.range p children))
  | [], p => by
    simp [SectionPtr.ofSection.list, SectionPtr.setRoutes.range, Section.setRoutes.range]
  | ⟨name, cs, src, kind, id, rp⟩ :: more, p => by
    have h1 := setRoutes_ofSection ⟨name, cs, src, kind, id, rp⟩ (path.Join [p, id])
    have h2 := setRoutes_range_ofSection more p
    simp only [SectionPtr.ofSection] at h1
    simp only [SectionPtr.ofSection.list, SectionPtr.ofSection, SectionPtr.setRoutes.range,
      Section.setRoutes.range, h1, h2]
end

theorem updateResourceRoutes_ofSection (s : Section) :
    (SectionPtr.ofSection s).updateResourceRoutes
      = some (SectionPtr.ofSection s.updateResourceRoutes) := by
  obtain ⟨name, children, src, kind, id, rp⟩ := s
  have h := setRoutes_ofSection ⟨name, children, src, kind, id, rp⟩ rp
  simp only [SectionPtr.ofSection] at h
  simp only [SectionPtr.ofSection, SectionPtr.updateResourceRoutes, Section.updateResourceRoutes]
  exact h

theorem Traverse_ptr_cons (name : GoString) (children : List SectionPtr) (src : List Char)
    (kind : SectionType) (id rp : GoString) (seg : GoString) (rest : List GoString) :
    (SectionPtr.ptr name children src kind id rp).Traverse (seg :: rest) =
      SectionPtr.Traverse.range (SectionPtr.ptr name children src kind id rp) children
        seg rest := by
  cases children with
  | nil => simp [SectionPtr.Traverse, SectionPtr.Traverse.range]
  | cons c cs => simp [SectionPtr.Traverse]

theorem Traverse_ptr_range_first_match (s c : SectionPtr) (before after : List SectionPtr)
    (seg : GoString) (rest : List GoString)
    (hbefore : ∀ x ∈ before, ∃ id, x.ResourceLocator = some id ∧ id ≠ seg)
    (hc : c.ResourceLocator = some seg) :
    SectionPtr.Traverse.range s (before ++ c :: after) seg rest =
      if rest = [] then some c else c.Traverse rest := by
  induction before with
  | nil =>
    cases c with
    | nil => simp [SectionPtr.ResourceLocator] at hc
    | ptr name cs src kind id rp =>
      have hid : seg = id := by
        simp only [SectionPtr.ResourceLocator, Option.some.injEq] at hc
        exact hc.symm
      subst hid
      cases rest with
      | nil => simp [SectionPtr.Traverse.range]
      | cons a l => simp [SectionPtr.Traverse.range]
  | cons x xs ih =>
    obtain ⟨id, hx, hne⟩ := hbefore x (by simp)
    cases x with
    | nil => simp [SectionPtr.ResourceLocator] at hx
    | ptr name cs src kind xid rp =>
      have hxid : xid = id := by
        simp only [SectionPtr.ResourceLocator, Option.some.injEq] at hx
        exact hx
      have hm : ¬ seg = xid := by rw [hxid]; exact fun e => hne e.symm
      simp only [List.cons_append, SectionPtr.Traverse.range, hm, if_false]
      exact ih (fun y hy => hbefore y (by simp [hy]))

theorem Traverse_ptr_range_no_match (s : SectionPtr) (children : List SectionPtr)
    (seg : GoString) (rest : List GoString)
    (h : ∀ x ∈ children, ∃ id, x.ResourceLocator = some id ∧ id ≠ seg) :
    SectionPtr.Traverse.range s children seg rest = some s := by
  induction children with
  | nil => simp [SectionPtr.Traverse.range]
  | cons x xs ih =>
    obtain ⟨id, hx, hne⟩ := h x (by simp)
    cases x with
    | nil => simp [SectionPtr.ResourceLocator] at hx
    | ptr name cs src kind xid rp =>
      have hxid : xid = id := by
        simp only [SectionPtr.ResourceLocator, Option.some.injEq] at hx
        exact hx
      have hm : ¬ seg = xid := by rw [hxid]; exact fun e => hne e.symm
      simp only [SectionPtr.Traverse.range, hm, if_false]
      exact ih (fun y hy => h y (by simp [hy]))

theorem Traverse_ptr_range_nil_met (s : SectionPtr) (before after : List SectionPtr)
    (seg : GoString) (rest : List GoString)
    (hbefore : ∀ x ∈ before, ∃ id, x.ResourceLocator = some id ∧ id ≠ seg) :
    SectionPtr.Traverse.range s (before ++ SectionPtr.nil :: after) seg rest = none := by
  induction before with
  | nil => simp [SectionPtr.Traverse.range]
  | cons x xs ih =>
    obtain ⟨id, hx, hne⟩ := hbefore x (by simp)
    cases x with
    | nil => simp [SectionPtr.ResourceLocator] at hx
    | ptr name cs src kind xid rp =>
      have hxid : xid = id := by
        simp only [SectionPtr.ResourceLocator, Option.some.injEq] at hx
        exact hx
      have hm : ¬ seg = xid := by rw [hxid]; exact fun e => hne e.symm
      simp only [List.cons_append, SectionPtr.Traverse.range, hm, if_false]
      exact ih (fun y hy => hbefore y (by simp [hy]))

/-! ## Nil children: where `Traverse` and `updateResourceRoutes` panic -/

/-- C4 (the code departs from it): in the tree `json.Unmarshal` builds from
`{"name":"r","section":[{"name":"a","section":[null,{"name":"b"}]}]}` both
segments of `a`, `b` can be matched step by step and lead to the node `b`,
yet `Traverse(["a","b"])` panics: under `a` the loop calls
`child.ResourceLocator()` on the nil child before it reaches `b`.  Without
the `null` element the call returns `b`. -/
theorem Traverse_longest_match_panics_behind_nil :
    longestMatchPtr ["a".toList, "b".toList] deepNullRoot
      = SectionPtr.ptr "b".toList [] "\x7b\"name\":\"b\"\x7d".toList SectionType.COLLECTION
          "b".toList [] ∧
    deepNullRoot.Traverse ["a".toList, "b".toList] = none ∧
    (SectionPtr.ptr "r".toList
      [SectionPtr.ptr "a".toList
        [SectionPtr.ptr "b".toList [] "\x7b\"name\":\"b\"\x7d".toList SectionType.COLLECTION
          "b".toList []]
        [] SectionType.COLLECTION "a".toList []]
      [] SectionType.COLLECTION "r".toList []).Traverse ["a".toList, "b".toList]
      = some (SectionPtr.ptr "b".toList [] "\x7b\"name\":\"b\"\x7d".toList
          SectionType.COLLECTION "b".toList []) :=
  ⟨rfl, rfl, rfl⟩

/-- C5 (the code departs from it): in the tree `json.Unmarshal` builds from
`{"name":"r","section":[null,{"name":"a"}]}` the first child whose identifier
equals `a` is the second element, yet `Traverse(["a"])` does not return it:
the loop calls `child.ResourceLocator()` on the nil first element and
panics.  Without the `null` element the call returns the child. -/
theorem Traverse_first_match_panics_behind_nil :
    firstMatchPtr nullThenARoot "a".toList = some ptrA ∧
    nullThenARoot.Traverse ["a".toList] = none ∧
    onlyARoot.Traverse ["a".toList] = some ptrA :=
  ⟨rfl, rfl, rfl⟩

/-- C6 (the code departs from it): the node `json.Unmarshal` builds from
`{"name":"r","section":[null]}` has no child with an identifier equal to the
segment `a`, yet `Traverse(["a"])` does not return the node: the loop calls
`child.ResourceLocator()` on the nil child and panics.  The same node
without children is returned. -/
theorem Traverse_no_match_panics_on_nil_child :
    (∀ c ∈ nullChildRoot.Children, c.ResourceLocator ≠ some "a".toList) ∧
    firstMatchPtr nullChildRoot "a".toList = none ∧
    nullChildRoot.Traverse ["a".toList] = none ∧
    (SectionPtr.ptr "r".toList [] [] SectionType.COLLECTION "r".toList []).Traverse
        ["a".toList]
      = some (SectionPtr.ptr "r".toList [] [] SectionType.COLLECTION "r".toList []) := by
  refine ⟨?_, rfl, rfl, rfl⟩
  intro c hc
  simp only [nullChildRoot, SectionPtr.Children, List.mem_singleton] at hc
  subst hc
  simp [SectionPtr.ResourceLocator]

/-- C17 (the code departs from it): the root `json.Unmarshal` builds from
`{"name":"r","section":[null,{"name":"a"}]}` has an empty full path, yet
`updateResourceRoutes` does not assign the node `a`: the loop reads
`section.ResourceID` of the nil first element and panics.  Without the `null`
element the node `a` gets the full path `a`. -/
theorem updateResourceRoutes_panics_on_nil_child :
    nullThenARoot.updateResourceRoutes = none ∧
    onlyARoot.updateResourceRoutes
      = some (SectionPtr.ptr "r".toList
          [SectionPtr.ptr "a".toList [] "\x7b\"name\":\"a\"\x7d".toList
            SectionType.COLLECTION "a".toList "a".toList]
          "\x7b\"name\":\"r\",\"section\":[\x7b\"name\":\"a\"\x7d]\x7d".toList
          SectionType.COLLECTION "r".toList []) :=
  ⟨rfl, rfl⟩

/-! ## The failed build, given what `encoding/json` did -/

theorem updateResourceRoutes_zero :
    SectionPtr.zero.updateResourceRoutes = some SectionPtr.zero := rfl

theorem returned_error_has_empty_root (caseLower : Char → Char) (decode : DecodeOutcome)
    (cr : ConfigGetterPtr) (e : Error)
    (h : NewConfigGetterPtr caseLower decode = some (cr, some e)) :
    cr.configSection = SectionPtr.zero ∧
    (decode = DecodeOutcome.rejected e ∨
      ∃ b, decode = DecodeOutcome.unmarshaled b (Result.error e)) := by
  unfold NewConfigGetterPtr ConfigGetterPtr.readConfig at h
  cases decode with
  | rejected err =>
    simp only [updateResourceRoutes_zero, Option.some.injEq, Prod.mk.injEq] at h
    obtain ⟨h1, h2⟩ := h
    exact ⟨by rw [← h1], Or.inl (by rw [h2])⟩
  | unmarshaled b unmarshal =>
    cases unmarshal with
    | panic => simp [SectionPtr.UnmarshalJSON] at h
    | error err =>
      simp only [SectionPtr.UnmarshalJSON, updateResourceRoutes_zero, Option.some.injEq,
        Prod.mk.injEq] at h
      obtain ⟨h1, h2⟩ := h
      exact ⟨by rw [← h1], Or.inr ⟨b, by rw [h2]⟩⟩
    | ok al =>
      simp only [SectionPtr.UnmarshalJSON, SectionPtr.zero] at h
      split at h
      · cases h
      · simp at h

/-- C15: whenever the decoding step of the build returns an error, be it the
decoder rejecting the stream or `json.Unmarshal` failing inside
`Section.UnmarshalJSON`, `NewConfigGetter` returns that error together with
an index (it does not panic) whose root is the node `&Section{}` it started
from: empty name, no children, empty raw payload, kind `COLLECTION`, empty
identifier and empty full path. -/
theorem failed_decode_returns_empty_root (caseLower : Char → Char)
    (decode : DecodeOutcome) (e : Error)
    (hfail : decode = DecodeOutcome.rejected e ∨
      ∃ b, decode = DecodeOutcome.unmarshaled b (Result.error e)) :
    ∃ cr : ConfigGetterPtr,
      NewConfigGetterPtr caseLower decode = some (cr, some e) ∧
      cr.configSection = SectionPtr.ptr [] [] [] SectionType.COLLECTION [] [] := by
  refine ⟨⟨SectionPtr.zero⟩, ?_, rfl⟩
  rcases hfail with h | ⟨b, h⟩
  · subst h; rfl
  · subst h; rfl

/-- Witness of C15: `Section.UnmarshalJSON` is called on `{"type":"bogus"}`
and `json.Unmarshal` returns the classifier's error. -/
theorem failed_decode_returns_empty_root_witness :
    ∃ cr : ConfigGetterPtr,
      NewConfigGetterPtr (fun c => c)
          (DecodeOutcome.unmarshaled "\x7b\"type\":\"bogus\"\x7d".toList
            (Result.error Error.parseSectionType))
        = some (cr, some Error.parseSectionType) ∧
      cr.configSection = SectionPtr.ptr [] [] [] SectionType.COLLECTION [] [] :=
  failed_decode_returns_empty_root (fun c => c)
    (DecodeOutcome.unmarshaled "\x7b\"type\":\"bogus\"\x7d".toList
      (Result.error Error.parseSectionType))
    Error.parseSectionType (Or.inr ⟨_, rfl⟩)

/-! ## The fragment view as an instance of the build given the library's outcome -/

theorem UnmarshalJSON_fragment_view (caseLower : Char → Char) (b : Fragment) :
    SectionPtr.UnmarshalJSON caseLower SectionPtr.zero b.raw
        (Fragment.unmarshalAlias caseLower b) =
      match Section.UnmarshalJSON caseLower b with
      | Result.ok s => some (SectionPtr.ofSection s, none)
      | Result.error e => some (SectionPtr.zero, some e)
      | Result.panic => none := by
  cases b with
  | invalid raw =>
    simp [Fragment.unmarshalAlias, Section.UnmarshalJSON, SectionPtr.UnmarshalJSON]
  | fields raw name sections type resourceId =>
    simp only [Fragment.unmarshalAlias, Section.UnmarshalJSON, Fragment.raw]
    cases (match type with
        | none => Result.ok SectionType.COLLECTION
        | some token => SectionType.UnmarshalJSON caseLower token) with
    | panic => simp [SectionPtr.UnmarshalJSON]
    | error e => simp [SectionPtr.UnmarshalJSON]
    | ok kind =>
      cases Section.UnmarshalJSON.elements caseLower sections with
      | panic => simp [SectionPtr.UnmarshalJSON]
      | error e => simp [SectionPtr.UnmarshalJSON]
      | ok children =>
        simp only [SectionPtr.UnmarshalJSON, SectionPtr.zero, Section.ofAlias, normalize]
        by_cases hr : resourceId.getD [] = []
        · simp [hr, SectionPtr.ofSection]
        · simp [hr, SectionPtr.ofSection]

theorem NewConfigGetter_fragment_view (caseLower : Char → Char) (b : Fragment) :
    (NewConfigGetterPtr caseLower
        (DecodeOutcome.unmarshaled b.raw (Fragment.unmarshalAlias caseLower b))).map
        (fun p => (p.1.configSection, p.2)) =
      (NewConfigGetter caseLower b).map
        (fun p => (SectionPtr.ofSection p.1.configSection, p.2)) := by
  unfold NewConfigGetterPtr ConfigGetterPtr.readConfig NewConfigGetter ConfigGetter.readConfig
  simp only [UnmarshalJSON_fragment_view]
  cases Section.UnmarshalJSON caseLower b with
  | panic => rfl
  | error e => rfl
  | ok s => simp [updateResourceRoutes_ofSection]

end trieconfig
